/-
Verification of the asset identity-normalization and boolean condition algebra
of `airflow/assets/__init__.py`.

The Python module is shallowly embedded below.  Strings are modelled as Lean
`String` / `List Char` (Python strings are sequences of code points, as are
`List Char`).  The pieces of the Python standard library the module calls
(`urllib.parse.urlsplit`, `urlunsplit`, `parse_qsl`, `urlencode`, percent
quoting, `str.rpartition`, `str.rstrip`, `str.lower`, `str.isspace`,
`str.isascii`) are modelled directly from their documented behaviour on the
relevant inputs; simplifications are noted in the doc comments of the
corresponding definitions.  External collaborators of the module (the
provider-supplied URI normalizer registry and the alias resolver backed by the
database) are treated as injected values, as the specification prescribes.
-/
import Mathlib

namespace AirflowAssets

/-! ### Character classes (Python `str` predicates, code-point based) -/

/-- ASCII letter, as used by Python scheme validation (`url[0].isascii() and
`url[0].isalpha()`). -/
def isAsciiAlpha (c : Char) : Bool :=
  decide ((65 ≤ c.toNat ∧ c.toNat ≤ 90) ∨ (97 ≤ c.toNat ∧ c.toNat ≤ 122))

/-- ASCII digit. -/
def isAsciiDigit (c : Char) : Bool :=
  decide (48 ≤ c.toNat ∧ c.toNat ≤ 57)

/-- Characters allowed in a URI scheme after the first one
(`urllib.parse.scheme_chars = ascii_letters + digits + "+-."`). -/
def isSchemeChar (c : Char) : Bool :=
  isAsciiAlpha c || isAsciiDigit c || c == '+' || c == '-' || c == '.'

/-- ASCII lower-casing of one character (Python `str.lower`; the module only
lower-cases validated ASCII scheme strings, where `str.lower` is exactly the
ASCII mapping). -/
def lowerChar (c : Char) : Char :=
  if 65 ≤ c.toNat ∧ c.toNat ≤ 90 then Char.ofNat (c.toNat + 32) else c

/-- Bytes removed from a URL before parsing
(`urllib.parse._UNSAFE_URL_BYTES_TO_REMOVE = ["\t", "\r", "\n"]`). -/
def isUnsafeUrlChar (c : Char) : Bool :=
  c == '\t' || c == '\r' || c == '\n'

def removeUnsafe (l : List Char) : List Char :=
  l.filter (fun c => !isUnsafeUrlChar c)

/-- `urllib.parse._WHATWG_C0_CONTROL_OR_SPACE`: `urlsplit` strips these from
the left of its input. -/
def isC0ControlOrSpace (c : Char) : Bool :=
  decide (c.toNat ≤ 32)

/-! ### Generic splitting helpers (Python `str.split(sep, 1)` and friends) -/

/-- Split at the first occurrence of `ch`: returns the part before it and,
if `ch` occurs, the part after it (Python `s.split(ch, 1)` /
`'ch' in s` combined). -/
def breakAt (ch : Char) : List Char → List Char × Option (List Char)
  | [] => ([], none)
  | c :: cs =>
    if c = ch then ([], some cs)
    else
      let r := breakAt ch cs
      (c :: r.1, r.2)

/-- Split on every occurrence of `ch` (Python `s.split(ch)`; always returns at
least one piece). -/
def splitOnChar (ch : Char) : List Char → List (List Char)
  | [] => [[]]
  | c :: cs =>
    let r := splitOnChar ch cs
    if c = ch then [] :: r
    else (c :: r.headD []) :: r.tail

/-- Python `s.rpartition(ch)`: split at the last occurrence of `ch`, returning
`(before, found, after)`; when `ch` does not occur, `before` is empty and
`after` is the whole string. -/
def rpartitionChar (ch : Char) (l : List Char) : List Char × Bool × List Char :=
  match breakAt ch l.reverse with
  | (revAfter, some revBefore) => (revBefore.reverse, true, revAfter.reverse)
  | (_, none) => ([], false, l)

/-! ### `urllib.parse.urlsplit` / `urlunsplit` -/

/-- The five components of a split URL (`urllib.parse.SplitResult`). -/
structure SplitResult where
  scheme : List Char
  netloc : List Char
  path : List Char
  query : List Char
  fragment : List Char
deriving DecidableEq, Repr

/-- Scheme recognition of `urlsplit`: the text before the first `:` is a scheme
when it is nonempty, starts with an ASCII letter and continues with scheme
characters; `urlsplit` lower-cases it. -/
def splitScheme (l : List Char) : List Char × List Char :=
  match breakAt ':' l with
  | (c :: cs, some rest) =>
    if isAsciiAlpha c && cs.all isSchemeChar then ((c :: cs).map lowerChar, rest)
    else ([], l)
  | _ => ([], l)

/-- A character that does not end the netloc (`urllib.parse._splitnetloc` stops
at the first of `/`, `?`, `#`). -/
def netlocChar (c : Char) : Bool :=
  !(c == '/' || c == '?' || c == '#')

/-- The pre-processing of `urlsplit`: strip leading C0-control/space
characters, then remove the unsafe bytes. -/
def urlsplitBase (l0 : List Char) : List Char :=
  removeUnsafe (l0.dropWhile isC0ControlOrSpace)

/-- The `//netloc` recognition of `urlsplit` (`_splitnetloc`): returns
`(netloc, rest)`. -/
def urlsplitNetlocRest (rest : List Char) : List Char × List Char :=
  if rest.take 2 = ['/', '/'] then
    ((rest.drop 2).takeWhile netlocChar, (rest.drop 2).dropWhile netlocChar)
  else ([], rest)

/-- Python `if ch in url: url, x = url.split(ch, 1) else x = ""`, used by
`urlsplit` for the fragment (`#`) and the query (`?`). -/
def splitTail (ch : Char) (l : List Char) : List Char × List Char :=
  match breakAt ch l with
  | (before, none) => (before, [])
  | (before, some r) => (before, r)

/-- The parts computation of `urllib.parse.urlsplit` (with
`allow_fragments=True`): strips and removes the unsafe bytes, recognises the
scheme, then the `//netloc`, then splits off the fragment and the query.  The
netloc validation the stdlib interleaves here is layered on top as
`urlsplitE` below. -/
def urlsplit (l0 : List Char) : SplitResult :=
  let sr := splitScheme (urlsplitBase l0)
  let nr := urlsplitNetlocRest sr.2
  let fr := splitTail '#' nr.2
  let qr := splitTail '?' fr.1
  ⟨sr.1, nr.1, qr.1, qr.2, fr.2⟩

/-- The schemes for which `urlunsplit` emits a `//` even when the netloc is
empty (`urllib.parse.uses_netloc`, CPython 3.11). -/
def usesNetloc : List (List Char) :=
  ["", "ftp", "http", "gopher", "nntp", "telnet", "imap", "wais", "file", "mms",
    "https", "shttp", "snews", "prospero", "rtsp", "rtsps", "rtspu", "rsync",
    "svn", "svn+ssh", "sftp", "nfs", "git", "git+ssh", "ws", "wss"].map String.data

/-- The netloc-marker stage of `urlunsplit` (CPython 3.11): the `//` marker is
emitted when the netloc is nonempty, or when the scheme is a `uses_netloc`
scheme and the path does not itself begin with `//`; inside the marker branch
a relative path gets a leading `/`. -/
def urlunsplitMarked (p : SplitResult) : List Char :=
  if p.netloc ≠ [] ∨ (p.scheme ≠ [] ∧ p.scheme ∈ usesNetloc ∧ p.path.take 2 ≠ ['/', '/']) then
    '/' :: '/' ::
      (p.netloc ++ (if p.path ≠ [] ∧ p.path.head? ≠ some '/' then '/' :: p.path else p.path))
  else p.path

/-- The scheme stage of `urlunsplit`. -/
def urlunsplitScheme (p : SplitResult) : List Char :=
  if p.scheme ≠ [] then p.scheme ++ ':' :: urlunsplitMarked p else urlunsplitMarked p

/-- The query stage of `urlunsplit`. -/
def urlunsplitQuery (p : SplitResult) : List Char :=
  if p.query ≠ [] then urlunsplitScheme p ++ '?' :: p.query else urlunsplitScheme p

/-- Model of `urllib.parse.urlunsplit` (CPython 3.11). -/
def urlunsplit (p : SplitResult) : List Char :=
  if p.fragment ≠ [] then urlunsplitQuery p ++ '#' :: p.fragment else urlunsplitQuery p

/-- The one change `urlsplit ∘ urlunsplit` makes to well-formed parts: when a
`uses_netloc` scheme has an empty netloc and a relative path, `urlunsplit`
prepends a `/` to the path (used to state the round-trip theorem). -/
def insertSlash (p : SplitResult) : SplitResult :=
  if p.netloc = [] ∧ p.scheme ∈ usesNetloc ∧ p.path.head? ≠ some '/' then
    { p with path := '/' :: p.path }
  else p

/-! ### Percent quoting (`urllib.parse.quote_plus` / `unquote_plus`) -/

def isHexDigitChar (c : Char) : Bool :=
  decide ((48 ≤ c.toNat ∧ c.toNat ≤ 57) ∨ (65 ≤ c.toNat ∧ c.toNat ≤ 70) ∨
    (97 ≤ c.toNat ∧ c.toNat ≤ 102))

def hexVal (c : Char) : Nat :=
  if c.toNat ≤ 57 then c.toNat - 48
  else if c.toNat ≤ 70 then c.toNat - 55
  else c.toNat - 87

/-- Upper-case hexadecimal digit, as produced by `urllib.parse.quote`. -/
def hexDigitUpper (b : Nat) : Char :=
  "0123456789ABCDEF".data.getD b '0'

/-- `%XX` escape of one byte. -/
def percentByte (b : Nat) : List Char :=
  ['%', hexDigitUpper (b / 16), hexDigitUpper (b % 16)]

/-- UTF-8 encoding of one code point (Python strings are percent-encoded via
their UTF-8 bytes). -/
def utf8Bytes (c : Char) : List Nat :=
  let n := c.toNat
  if n < 0x80 then [n]
  else if n < 0x800 then [0xC0 + n / 0x40, 0x80 + n % 0x40]
  else if n < 0x10000 then [0xE0 + n / 0x1000, 0x80 + n / 0x40 % 0x40, 0x80 + n % 0x40]
  else [0xF0 + n / 0x40000, 0x80 + n / 0x1000 % 0x40, 0x80 + n / 0x40 % 0x40, 0x80 + n % 0x40]

/-- The replacement character U+FFFD used by `bytes.decode("utf-8", "replace")`. -/
def replChar : Char := Char.ofNat 0xFFFD

/-- Is `b` a UTF-8 continuation byte? -/
def isContByte (b : Nat) : Bool :=
  decide (0x80 ≤ b ∧ b < 0xC0)

/-- Lower bound (inclusive) of the first continuation byte of a three-byte
sequence (UTF-8 forbids over-long encodings: `E0` needs `A0..BF`). -/
def utf8Cont3Lo (b0 : Nat) : Nat := if b0 = 0xE0 then 0xA0 else 0x80

/-- Upper bound (exclusive) of the first continuation byte of a three-byte
sequence (UTF-8 forbids surrogates: `ED` needs `80..9F`). -/
def utf8Cont3Hi (b0 : Nat) : Nat := if b0 = 0xED then 0xA0 else 0xC0

/-- Lower bound (inclusive) of the first continuation byte of a four-byte
sequence (`F0` needs `90..BF`). -/
def utf8Cont4Lo (b0 : Nat) : Nat := if b0 = 0xF0 then 0x90 else 0x80

/-- Upper bound (exclusive) of the first continuation byte of a four-byte
sequence (`F4` needs `80..8F`: code points stop at `U+10FFFF`). -/
def utf8Cont4Hi (b0 : Nat) : Nat := if b0 = 0xF4 then 0x90 else 0xC0

/-- Decode one two-byte sequence headed by `b0 ∈ C2..DF`: on an invalid or
missing continuation byte, emit a replacement character for the maximal
subpart (just `b0`) and leave the rest. -/
def utf8Step2 (b0 : Nat) : List Nat → Char × List Nat
  | [] => (replChar, [])
  | b1 :: r1 =>
    if isContByte b1 then (Char.ofNat ((b0 - 0xC0) * 0x40 + (b1 - 0x80)), r1)
    else (replChar, b1 :: r1)

/-- Decode one three-byte sequence headed by `b0 ∈ E0..EF`. -/
def utf8Step3 (b0 : Nat) : List Nat → Char × List Nat
  | [] => (replChar, [])
  | b1 :: r1 =>
    if utf8Cont3Lo b0 ≤ b1 ∧ b1 < utf8Cont3Hi b0 then
      match r1 with
      | [] => (replChar, [])
      | b2 :: r2 =>
        if isContByte b2 then
          (Char.ofNat ((b0 - 0xE0) * 0x1000 + (b1 - 0x80) * 0x40 + (b2 - 0x80)), r2)
        else (replChar, b2 :: r2)
    else (replChar, b1 :: r1)

/-- Decode one four-byte sequence headed by `b0 ∈ F0..F4`. -/
def utf8Step4 (b0 : Nat) : List Nat → Char × List Nat
  | [] => (replChar, [])
  | b1 :: r1 =>
    if utf8Cont4Lo b0 ≤ b1 ∧ b1 < utf8Cont4Hi b0 then
      match r1 with
      | [] => (replChar, [])
      | b2 :: r2 =>
        if isContByte b2 then
          match r2 with
          | [] => (replChar, [])
          | b3 :: r3 =>
            if isContByte b3 then
              (Char.ofNat ((b0 - 0xF0) * 0x40000 + (b1 - 0x80) * 0x1000 +
                (b2 - 0x80) * 0x40 + (b3 - 0x80)), r3)
            else (replChar, b3 :: r3)
        else (replChar, b2 :: r2)
    else (replChar, b1 :: r1)

/-- Decode one scalar (or one maximal malformed subpart, as a replacement
character) from the byte stream: returns the character and the remaining
bytes. -/
def utf8Step (b0 : Nat) (rest : List Nat) : Char × List Nat :=
  if b0 < 0x80 then (Char.ofNat b0, rest)
  else if 0xC2 ≤ b0 ∧ b0 < 0xE0 then utf8Step2 b0 rest
  else if 0xE0 ≤ b0 ∧ b0 < 0xF0 then utf8Step3 b0 rest
  else if 0xF0 ≤ b0 ∧ b0 < 0xF5 then utf8Step4 b0 rest
  else (replChar, rest)

/-- The decode loop, with fuel for structural termination (each step consumes
at least one byte, so `length` fuel always suffices). -/
def utf8DecodeAux : Nat → List Nat → List Char
  | _, [] => []
  | 0, _ :: _ => []
  | fuel + 1, b0 :: rest =>
    let s := utf8Step b0 rest
    s.1 :: utf8DecodeAux fuel s.2

/-- Strict UTF-8 decoding of a byte sequence with `errors="replace"` (as done
by `urllib.parse.unquote`): each maximal malformed subpart becomes one
replacement character. -/
def utf8Decode (bs : List Nat) : List Char := utf8DecodeAux bs.length bs

/-- Characters `urllib.parse.quote` never escapes
(`_ALWAYS_SAFE = ascii letters + digits + "_.-~"`; `urlencode` passes
`safe=""`). -/
def isAlwaysSafe (c : Char) : Bool :=
  isAsciiAlpha c || isAsciiDigit c || c == '_' || c == '.' || c == '-' || c == '~'

/-- `urllib.parse.quote_plus` with `safe=""` applied to one character:
safe characters pass through, a space becomes `+`, anything else is
percent-encoded via its UTF-8 bytes. -/
def quotePlusChar (c : Char) : List Char :=
  if isAlwaysSafe c then [c]
  else if c = ' ' then ['+']
  else (utf8Bytes c).flatMap percentByte

/-- `urllib.parse.quote_plus` with `safe=""` (the encoder used by
`urlencode`). -/
def quote_plus (s : List Char) : List Char :=
  s.flatMap quotePlusChar

/-- One token of `unquote` scanning: a byte (either a literal ASCII character
or a decoded `%XX` escape) or a non-ASCII character passed through. -/
def unquoteTokenize : List Char → List (Nat ⊕ Char)
  | '%' :: h1 :: h2 :: rest =>
    if isHexDigitChar h1 && isHexDigitChar h2 then
      Sum.inl (hexVal h1 * 16 + hexVal h2) :: unquoteTokenize rest
    else Sum.inl 37 :: unquoteTokenize (h1 :: h2 :: rest)
  | c :: rest =>
    if c.toNat < 128 then Sum.inl c.toNat :: unquoteTokenize rest
    else Sum.inr c :: unquoteTokenize rest
  | [] => []

/-- Regroup the tokens: maximal runs of bytes are UTF-8 decoded together
(`unquote` feeds each maximal ASCII chunk through `unquote_to_bytes` and
decodes the resulting byte string); non-ASCII characters pass through. -/
def unquoteDetokenize (acc : List Nat) : List (Nat ⊕ Char) → List Char
  | [] => utf8Decode acc.reverse
  | Sum.inl b :: ts => unquoteDetokenize (b :: acc) ts
  | Sum.inr c :: ts => utf8Decode acc.reverse ++ c :: unquoteDetokenize [] ts

/-- Model of `urllib.parse.unquote` (UTF-8, `errors="replace"`). -/
def unquote (s : List Char) : List Char :=
  unquoteDetokenize [] (unquoteTokenize s)

/-- Model of `urllib.parse.unquote_plus`: `+` becomes a space, then
`unquote`. -/
def unquote_plus (s : List Char) : List Char :=
  unquote (s.map fun c => if c = '+' then ' ' else c)

/-! ### `urllib.parse.parse_qsl` / `urlencode` -/

/-- One `name=value` field of a query string, as handled by `parse_qsl` with
`keep_blank_values=False`: empty fields are skipped, fields without `=` are
skipped, fields whose raw value is empty are skipped, and name and value are
`unquote_plus`-decoded. -/
def parseQslField (field : List Char) : Option (List Char × List Char) :=
  if field = [] then none
  else
    match breakAt '=' field with
    | (_, none) => none
    | (n, some v) => if v = [] then none else some (unquote_plus n, unquote_plus v)

/-- Model of `urllib.parse.parse_qsl` with default arguments (separator `&`,
`keep_blank_values=False`). -/
def parse_qsl (qs : List Char) : List (List Char × List Char) :=
  if qs = [] then []
  else (splitOnChar '&' qs).filterMap parseQslField

/-- Model of `urllib.parse.urlencode` with default `quote_via=quote_plus` on an
association list. -/
def urlencode (l : List (List Char × List Char)) : List Char :=
  List.intercalate ['&'] (l.map fun p => quote_plus p.1 ++ '=' :: quote_plus p.2)

/-- Comparison used by Python `sorted` on pairs of strings: lexicographic on
the pair, strings compared by code points.  (`List Char` carries the Mathlib
lexicographic linear order, whose character order is by code point.) -/
def pairLe (p q : List Char × List Char) : Prop :=
  p.1 < q.1 ∨ (p.1 = q.1 ∧ p.2 ≤ q.2)

instance : DecidableRel pairLe := fun _p _q =>
  inferInstanceAs (Decidable (_ ∨ _))

instance : IsTotal (List Char × List Char) pairLe where
  total p q := by
    rcases lt_trichotomy p.1 q.1 with h | h | h
    · exact Or.inl (Or.inl h)
    · rcases le_total p.2 q.2 with h2 | h2
      · exact Or.inl (Or.inr ⟨h, h2⟩)
      · exact Or.inr (Or.inr ⟨h.symm, h2⟩)
    · exact Or.inr (Or.inl h)

instance : IsTrans (List Char × List Char) pairLe where
  trans a b c hab hbc := by
    rcases hab with h1 | ⟨e1, l1⟩
    · rcases hbc with h2 | ⟨e2, _⟩
      · exact Or.inl (h1.trans h2)
      · exact Or.inl (e2 ▸ h1)
    · rcases hbc with h2 | ⟨e2, l2⟩
      · exact Or.inl (e1 ▸ h2)
      · exact Or.inr ⟨e1.trans e2, l1.trans l2⟩

/-- Python `sorted` on a list of `(name, value)` pairs: a stable sort by the
lexicographic pair order.  (Stability is immaterial here: the order is
antisymmetric, so equal keys mean equal elements.) -/
def sortPairs (l : List (List Char × List Char)) : List (List Char × List Char) :=
  l.insertionSort pairLe

/-! ### The module under verification: URI sanitization -/

/-- Python exceptions raised by the module. -/
inductive PyExc where
  | typeError (msg : String)
  | valueError (msg : String)
deriving DecidableEq, Repr

deriving instance DecidableEq for Except

/-- Python `s.partition(ch)[2]`: the text after the first occurrence of `ch`,
`""` when absent. -/
def afterChar (ch : Char) (l : List Char) : List Char :=
  match breakAt ch l with
  | (_, some rest) => rest
  | (_, none) => []

/-- Python `s.partition(ch)[0]`: the text before the first occurrence of `ch`,
the whole string when absent. -/
def beforeChar (ch : Char) (l : List Char) : List Char :=
  (breakAt ch l).1

def hexDigitLower (b : Nat) : Char :=
  if b < 10 then Char.ofNat (48 + b) else Char.ofNat (87 + b)

/-- Printability as Python `repr` classifies characters: exact on ASCII
(`0x20`–`0x7E`); characters over `0x7F` are treated as printable, which
matches Python except for the non-ASCII control/format/separator code points
(their `repr` would be a `\x`/`\u` escape).  Only the spelling of one
`ipaddress` error message depends on this. -/
def pyPrintableApprox (c : Char) : Bool :=
  decide (0x20 ≤ c.toNat ∧ c.toNat ≤ 0x7E) || decide (0x80 ≤ c.toNat)

def reprEscapeChar (q : Char) (c : Char) : List Char :=
  if c = '\\' then ['\\', '\\']
  else if c = q then ['\\', q]
  else if c = '\t' then ['\\', 't']
  else if c = '\n' then ['\\', 'n']
  else if c = '\r' then ['\\', 'r']
  else if pyPrintableApprox c then [c]
  else if c.toNat < 0x100 then
    ['\\', 'x', hexDigitLower (c.toNat / 16 % 16), hexDigitLower (c.toNat % 16)]
  else if c.toNat < 0x10000 then
    ['\\', 'u', hexDigitLower (c.toNat / 4096 % 16), hexDigitLower (c.toNat / 256 % 16),
      hexDigitLower (c.toNat / 16 % 16), hexDigitLower (c.toNat % 16)]
  else
    ['\\', 'U', hexDigitLower (c.toNat / 0x10000000 % 16),
      hexDigitLower (c.toNat / 0x1000000 % 16), hexDigitLower (c.toNat / 0x100000 % 16),
      hexDigitLower (c.toNat / 0x10000 % 16), hexDigitLower (c.toNat / 4096 % 16),
      hexDigitLower (c.toNat / 256 % 16), hexDigitLower (c.toNat / 16 % 16),
      hexDigitLower (c.toNat % 16)]

/-- Python `repr` of a `str`: single quotes, switching to double quotes when
the text holds a single quote but no double quote. -/
def pyRepr (s : List Char) : List Char :=
  let q := if '\x27' ∈ s ∧ '"' ∉ s then '"' else '\x27'
  q :: (s.flatMap (reprEscapeChar q) ++ [q])

/-- `ipaddress._BaseV4._parse_octet` as a validity test: nonempty, ASCII
decimal digits only, at most 3 of them, no leading zero (except `0` itself),
value at most 255. -/
def parseOctetValid (o : List Char) : Bool :=
  decide (o ≠ []) && o.all isAsciiDigit && decide (o.length ≤ 3) &&
    (decide (o = ['0']) || decide (o.headD ' ' ≠ '0')) &&
    decide (o.foldl (fun a c => a * 10 + (c.toNat - 48)) 0 ≤ 255)

/-- `ipaddress.IPv4Address` on a string, as a validity test: no `/`, then
exactly four valid octets separated by `.`. -/
def isIPv4str (s : List Char) : Bool :=
  decide ('/' ∉ s) && decide (s ≠ []) &&
    (let octs := splitOnChar '.' s
     decide (octs.length = 4) && octs.all parseOctetValid)

/-- `ipaddress._BaseV6._parse_hextet` as a validity test: hex digits only
(so nonempty, since `int("", 16)` raises), at most 4 of them. -/
def hextetValid (h : List Char) : Bool :=
  decide (h ≠ []) && h.all isHexDigitChar && decide (h.length ≤ 4)

/-- The hextet-group analysis of `ipaddress._BaseV6._ip_int_from_string`
after the optional IPv4 suffix has been replaced: at most 9 parts; without an
interior empty part, exactly 8 parts with nonempty endpoints; with exactly
one interior empty part (the `::`), an empty first or last part must sit
right next to it, at most 7 real parts remain, and each is a valid hextet. -/
def ipv6PartsValid (parts : List (List Char)) : Bool :=
  decide (parts.length ≤ 9) &&
    (let n := parts.length
     let interior := (parts.drop 1).dropLast
     let emptyCount := (interior.filter List.isEmpty).length
     if emptyCount = 0 then
       decide (n = 8) && !(parts.headD []).isEmpty && !(parts.getLastD []).isEmpty &&
         parts.all hextetValid
     else if emptyCount = 1 then
       let i := interior.findIdx List.isEmpty + 1
       let headEmpty := (parts.headD []).isEmpty
       let lastEmpty := (parts.getLastD []).isEmpty
       let hi := if headEmpty then 0 else i
       let lo := if lastEmpty then 0 else n - i - 1
       (!headEmpty || decide (i = 1)) &&
         (!lastEmpty || decide (n - i - 2 = 0)) &&
         decide (hi + lo ≤ 7) &&
         (parts.take hi).all hextetValid && (parts.drop (n - lo)).all hextetValid
     else false)

/-- The body of `ipaddress._BaseV6._ip_int_from_string` as a validity test:
nonempty, split on `:` into at least 3 parts, an IPv4-looking last part
replaced by two (valid) hextets, then the group analysis. -/
def ipv6CoreValid (addr : List Char) : Bool :=
  decide (addr ≠ []) &&
    (let parts := splitOnChar ':' addr
     decide (3 ≤ parts.length) &&
       (if '.' ∈ parts.getLastD [] then
         isIPv4str (parts.getLastD []) && ipv6PartsValid (parts.dropLast ++ [['0'], ['0']])
       else ipv6PartsValid parts))

/-- `ipaddress.IPv6Address` on a string, as a validity test: no `/`, an
optional nonempty `%scope` (holding no further `%`) split off first. -/
def isIPv6str (s : List Char) : Bool :=
  decide ('/' ∉ s) &&
    (match breakAt '%' s with
     | (addr, none) => ipv6CoreValid addr
     | (addr, some scope) =>
       decide (scope ≠ []) && decide ('%' ∉ scope) && ipv6CoreValid addr)

/-- The regex `\Av[a-fA-F0-9]+\..+\Z` of `_check_bracketed_host`: since a hex
digit is never `.`, it matches exactly a `v`, a nonempty maximal hex run, a
`.`, and at least one more character with no newline among them. -/
def ipvFutureValid (h : List Char) : Bool :=
  match h with
  | 'v' :: rest =>
    let hex := rest.takeWhile isHexDigitChar
    let after := rest.dropWhile isHexDigitChar
    decide (hex ≠ []) && (after.headD ' ' == '.') && decide (2 ≤ after.length) &&
      (after.drop 1).all (fun c => c != '\n')
  | _ => false

/-- `urllib.parse._check_bracketed_host`: a host starting with `v` must be an
IPvFuture address; otherwise `ipaddress.ip_address` must parse it, and an
IPv4 address is rejected.  The generic failure message embeds Python
`repr` of the host. -/
def check_bracketed_host (hostname : List Char) : Except PyExc Unit :=
  if hostname.headD ' ' = 'v' then
    if ipvFutureValid hostname then .ok ()
    else .error (.valueError "IPvFuture address is invalid")
  else if isIPv4str hostname then
    .error (.valueError "An IPv4 address cannot be in brackets")
  else if isIPv6str hostname then .ok ()
  else
    .error (.valueError (String.mk (pyRepr hostname) ++
      " does not appear to be an IPv4 or IPv6 address"))

/-- The netloc validation of `urlsplit`: the unmatched-bracket check raising
`ValueError("Invalid IPv6 URL")`, then for a netloc with both brackets the
`_check_bracketed_host` validation of the text between the first `[` and the
first `]` after it (CPython runs these only in the `//` branch, but without
that branch the netloc is empty and both conditions are false anyway).  The
one remaining raise-only validation of the stdlib, the NFKC re-normalization
check of `_checknetloc`, fires only for non-ASCII netlocs and is not
modelled: there this parser accepts where CPython might raise, so its success
set over-approximates CPython's and its successes agree with CPython's.
Every theorem whose truth could depend on that path carries hypotheses
keeping the relevant netloc ASCII. -/
def netlocChecks (netloc : List Char) : Except PyExc Unit :=
  if ('[' ∈ netloc ∧ ']' ∉ netloc) ∨ (']' ∈ netloc ∧ '[' ∉ netloc) then
    .error (.valueError "Invalid IPv6 URL")
  else if '[' ∈ netloc ∧ ']' ∈ netloc then
    check_bracketed_host (beforeChar ']' (afterChar '[' netloc))
  else .ok ()

/-- `urllib.parse.urlsplit` with its modelled error path: the parts of
`urlsplit` when the netloc passes `netlocChecks`, the `ValueError`
otherwise. -/
def urlsplitE (l0 : List Char) : Except PyExc SplitResult :=
  match netlocChecks (urlsplit l0).netloc with
  | .error e => .error e
  | .ok _ => .ok (urlsplit l0)

/-- `normalize_noop`: the built-in place-holder normalizer. -/
def normalize_noop (parts : SplitResult) : SplitResult := parts

/-- `_get_uri_normalizer`: returns `normalize_noop` for scheme `file`.  For
any other scheme the source consults the external `ProvidersManager`
registry; per the specification that registry is an injected external
collaborator, modelled here as empty. -/
def get_uri_normalizer (scheme : List Char) : Option (SplitResult → SplitResult) :=
  if scheme = "file".data then some normalize_noop else none

/-- `_get_normalized_scheme`: the lower-cased scheme of the parsed URI. -/
def get_normalized_scheme (uri : List Char) : List Char :=
  ((urlsplit uri).scheme).map lowerChar

/-- Python `parsed.path.rstrip("/") or "/"`. -/
def rstripSlashesOrRoot (p : List Char) : List Char :=
  if (p.reverse.dropWhile (· == '/')).reverse = [] then ['/']
  else (p.reverse.dropWhile (· == '/')).reverse

/-- The canonical form of a query string: parse, sort, re-encode
(`urlencode(sorted(parse_qsl(query)))`). -/
def canonicalQuery (q : List Char) : List Char :=
  urlencode (sortPairs (parse_qsl q))

/-- `_sanitize_uri` on `List Char` (a `urlsplit` failure propagates as the
Python exception would).  The auth-stripping warning is non-fatal and not part
of the value semantics. -/
def sanitizeCore (uri : List Char) : Except PyExc (List Char) :=
  match urlsplitE uri with
  | .error e => .error e
  | .ok parsed =>
    if parsed.scheme = [] ∧ parsed.netloc = [] then .ok uri
    else
      let ns := get_normalized_scheme uri
      if ns = [] then .ok uri
      else if ns.take 2 = ['x', '-'] then .ok uri
      else if ns = "airflow".data then
        .error (.valueError "Asset scheme \x27airflow\x27 is reserved")
      else
        let nn := (rpartitionChar '@' parsed.netloc).2.2
        let nq := if parsed.query ≠ [] then canonicalQuery parsed.query else []
        let replaced : SplitResult :=
          { scheme := ns, netloc := nn, path := rstripSlashesOrRoot parsed.path,
            query := nq, fragment := [] }
        let final := (get_uri_normalizer ns).elim replaced (fun f => f replaced)
        .ok (urlunsplit final)

/-- `_sanitize_uri` on `String`. -/
def sanitize_uri (uri : String) : Except PyExc String :=
  (sanitizeCore uri.data).map String.mk

/-! ### Identifier validation -/

/-- An arbitrary Python value passed to a validator: either a `str` or
anything else (`nonString` stands in for every non-string value, which the
validators reject without inspecting further). -/
inductive PyValue where
  | str (s : String)
  | nonString
deriving DecidableEq, Repr

/-- One character of Python `str.isspace`: the 29 code points for which
CPython reports a whitespace character (bidirectional class WS/B/S or
category Zs).  Note `\x1c`–`\x1f` are ASCII and whitespace to Python, and
`U+0085` is whitespace but not ASCII. -/
def pyIsSpaceChar (c : Char) : Bool :=
  c.toNat ∈ [0x09, 0x0A, 0x0B, 0x0C, 0x0D, 0x1C, 0x1D, 0x1E, 0x1F, 0x20, 0x85, 0xA0,
    0x1680, 0x2000, 0x2001, 0x2002, 0x2003, 0x2004, 0x2005, 0x2006, 0x2007, 0x2008,
    0x2009, 0x200A, 0x2028, 0x2029, 0x202F, 0x205F, 0x3000]

/-- Python `str.isspace`: true iff the string is nonempty and all characters
are whitespace. -/
def py_isspace (s : String) : Bool :=
  decide (s.data ≠ []) && s.data.all pyIsSpaceChar

/-- Python `str.isascii` (true for the empty string). -/
def py_isascii (s : String) : Bool :=
  s.data.all fun c => decide (c.toNat < 128)

/-- `_validate_identifier(instance, attribute, value)`: the owner type name
and attribute name only feed the error messages. -/
def validate_identifier (ownerType attrName : String) (value : PyValue) :
    Except PyExc String :=
  match value with
  | .nonString => .error (.valueError (ownerType ++ " " ++ attrName ++ " must be a string"))
  | .str s =>
    if s.length > 1500 then
      .error (.valueError (ownerType ++ " " ++ attrName ++ " cannot exceed 1500 characters"))
    else if py_isspace s then
      .error (.valueError (ownerType ++ " " ++ attrName ++ " cannot be just whitespace"))
    else if !py_isascii s then
      .error (.valueError (ownerType ++ " " ++ attrName ++ " must only consist of ASCII characters"))
    else .ok s

/-- `_validate_non_empty_identifier`: `_validate_identifier`, then reject a
falsy (empty) result. -/
def validate_non_empty_identifier (ownerType attrName : String) (value : PyValue) :
    Except PyExc String :=
  match validate_identifier ownerType attrName value with
  | .error e => .error e
  | .ok s =>
    if s = "" then .error (.valueError (ownerType ++ " " ++ attrName ++ " cannot be empty"))
    else .ok s

/-! ### The data model: assets and condition nodes -/

/-- The identity fields of `Asset`.  The `extra` payload (an arbitrary
`dict[str, Any]`) takes no part in any operation the claims concern and is
omitted. -/
structure Asset where
  name : String
  uri : String
  group : String
deriving DecidableEq, Repr

/-- `Asset.__init__`: requires at least one of name/uri, defaults each to the
other, validates both as non-empty identifiers, sanitizes the URI, and
validates the group when nonempty (falling back to the class `asset_type`
tag, `""` for `Asset` itself, `"dataset"`/`"model"` for the subtypes). -/
def asset_init (name uri : Option String) (group : String) (assetType : String) :
    Except PyExc Asset :=
  match name, uri with
  | none, none => .error (.typeError "Asset() requires either \x27name\x27 or \x27uri\x27")
  | some n, none => asset_init_fields n n group assetType
  | none, some u => asset_init_fields u u group assetType
  | some n, some u => asset_init_fields n u group assetType
where
  asset_init_fields (n u group assetType : String) : Except PyExc Asset := do
    let vname ← validate_non_empty_identifier "Asset" "name" (.str n)
    let vuri0 ← validate_non_empty_identifier "Asset" "uri" (.str u)
    let vuri ← sanitize_uri vuri0
    let vgroup ←
      if group ≠ "" then validate_identifier "Asset" "group" (.str group)
      else .ok assetType
    pure ⟨vname, vuri, vgroup⟩

/-- `Asset.evaluate`: `statuses.get(self.uri, False)`.  The statuses mapping
is modelled as an association list (Python dict keys are unique; lookup
returns the first match). -/
def Asset.evaluate (a : Asset) (statuses : List (String × Bool)) : Bool :=
  (statuses.lookup a.uri).getD false

/-- The condition-node tree rooted at `BaseAsset`:
`asset` is a leaf `Asset`; `assetAlias` a bare `AssetAlias` (name, group);
`assetAny`/`assetAll` are `AssetAny`/`AssetAll` with their stored child list;
`aliasCondition` is `_AssetAliasCondition` with its name and the resolved
assets its constructor obtained from `expand_alias_to_assets` (an external
database lookup, injected as the stored list, per the specification). -/
inductive BaseAsset where
  | asset (a : Asset)
  | assetAlias (name group : String)
  | assetAny (objects : List BaseAsset)
  | assetAll (objects : List BaseAsset)
  | aliasCondition (name : String) (objects : List Asset)
deriving Repr

/-- `BaseAsset.__bool__`: every condition node is truthy. -/
def BaseAsset.toBool (_a : BaseAsset) : Bool := true

mutual

/-- `evaluate(statuses)`.  A bare `AssetAlias` inherits the abstract
`BaseAsset.evaluate`, which raises `NotImplementedError`; that is modelled as
`none`.  `AssetAny`/`AssetAll` aggregate their children with `any`/`all` over
a generator, which stops at the first decisive child; a child raising before a
decisive value propagates the exception (`none`).  `_AssetAliasCondition`
inherits the `AssetAny` aggregation over its resolved (leaf) assets. -/
def BaseAsset.evaluate (statuses : List (String × Bool)) : BaseAsset → Option Bool
  | .asset a => some (a.evaluate statuses)
  | .assetAlias _ _ => none
  | .assetAny objs => evaluateAny statuses objs
  | .assetAll objs => evaluateAll statuses objs
  | .aliasCondition _ objs => some (objs.any fun a => a.evaluate statuses)

/-- Python `any(x.evaluate(statuses=statuses) for x in objects)`. -/
def evaluateAny (statuses : List (String × Bool)) : List BaseAsset → Option Bool
  | [] => some false
  | o :: os =>
    match o.evaluate statuses with
    | none => none
    | some true => some true
    | some false => evaluateAny statuses os

/-- Python `all(x.evaluate(statuses=statuses) for x in objects)`. -/
def evaluateAll (statuses : List (String × Bool)) : List BaseAsset → Option Bool
  | [] => some true
  | o :: os =>
    match o.evaluate statuses with
    | none => none
    | some false => some false
    | some true => evaluateAll statuses os

end

/-- The `seen`-set filter of `_AssetBooleanCondition.iter_assets`: keep each
pair whose key is not already seen, adding yielded keys to `seen`. -/
def dedupKeys : List (String × Asset) → List String → List (String × Asset)
  | [], _ => []
  | (k, v) :: rest, seen =>
    if k ∈ seen then dedupKeys rest seen
    else (k, v) :: dedupKeys rest (k :: seen)

mutual

/-- `iter_assets()`: a leaf `Asset` yields `(uri, self)` once; a bare
`AssetAlias` yields nothing; a boolean composite walks its children in order,
skipping any URI already yielded (one shared `seen` set for the whole walk);
`_AssetAliasCondition` inherits the composite walk over its resolved
assets. -/
def BaseAsset.iter_assets : BaseAsset → List (String × Asset)
  | .asset a => [(a.uri, a)]
  | .assetAlias _ _ => []
  | .assetAny objs => iterAssetsList objs []
  | .assetAll objs => iterAssetsList objs []
  | .aliasCondition _ objs => dedupKeys (objs.map fun a => (a.uri, a)) []

/-- The child loop of `_AssetBooleanCondition.iter_assets`, threading the
`seen` set through the children. -/
def iterAssetsList : List BaseAsset → List String → List (String × Asset)
  | [], _ => []
  | o :: os, seen =>
    let filtered := dedupKeys o.iter_assets seen
    filtered ++ iterAssetsList os (seen ++ filtered.map Prod.fst)

end

/-- A dependency-graph edge (`airflow.serialization.dag_dependency.DagDependency`,
an external plain value type). -/
structure DagDependency where
  source : String
  target : String
  dependency_type : String
  dependency_id : String
deriving DecidableEq, Repr

/-- Python `s or d` on strings: `d` when `s` is empty. -/
def strOr (s d : String) : String := if s = "" then d else s

mutual

/-- `iter_dag_dependencies(source=, target=)` for each node kind, following
the source: a leaf `Asset` yields one `asset` edge; a bare `AssetAlias` one
`asset-alias` edge; boolean composites concatenate their children's edges
with the same labels; `_AssetAliasCondition` yields, per resolved asset, an
`asset` edge between the alias-tagged node and `"asset"` (direction chosen by
whether `source` was supplied) and an `asset-alias` edge between
`(source, target)` with each empty label defaulting to `"asset:{uri}"`; with
no resolved assets it yields a single `asset-alias` edge with `"asset-alias"`
defaults. -/
def BaseAsset.iter_dag_dependencies (source target : String) :
    BaseAsset → List DagDependency
  | .asset a => [⟨strOr source "asset", strOr target "asset", "asset", a.uri⟩]
  | .assetAlias nm _ =>
    [⟨strOr source "asset-alias", strOr target "asset-alias", "asset-alias", nm⟩]
  | .assetAny objs => iterDagDepList source target objs
  | .assetAll objs => iterDagDepList source target objs
  | .aliasCondition nm objs =>
    if objs ≠ [] then
      (objs.map fun a =>
        [⟨if source ≠ "" then "asset-alias:" ++ nm else "asset",
          if source ≠ "" then "asset" else "asset-alias:" ++ nm,
          "asset", a.uri⟩,
         ⟨strOr source ("asset:" ++ a.uri), strOr target ("asset:" ++ a.uri),
          "asset-alias", nm⟩]).flatten
    else [⟨strOr source "asset-alias", strOr target "asset-alias", "asset-alias", nm⟩]

/-- The child loop of `_AssetBooleanCondition.iter_dag_dependencies`. -/
def iterDagDepList (source target : String) : List BaseAsset → List DagDependency
  | [] => []
  | o :: os =>
    o.iter_dag_dependencies source target ++ iterDagDepList source target os

end

/-- The constructor body of `_AssetBooleanCondition.__init__`: every
`AssetAlias` argument is eagerly replaced by `_AssetAliasCondition(obj.name)`,
which resolves the alias through the injected resolver
(`expand_alias_to_assets`). -/
def replaceAliases (resolve : String → List Asset) (objs : List BaseAsset) :
    List BaseAsset :=
  objs.map fun o =>
    match o with
    | .assetAlias nm _ => .aliasCondition nm (resolve nm)
    | o => o

/-- `AssetAny(*objects)`. -/
def assetAnyMk (resolve : String → List Asset) (objs : List BaseAsset) : BaseAsset :=
  .assetAny (replaceAliases resolve objs)

/-- `AssetAll(*objects)`. -/
def assetAllMk (resolve : String → List Asset) (objs : List BaseAsset) : BaseAsset :=
  .assetAll (replaceAliases resolve objs)

/-- `a | b`: `AssetAny.__or__` (also inherited by `_AssetAliasCondition`,
whose stored objects are its resolved assets) splices `other` onto
`self.objects`; every other node uses `BaseAsset.__or__`, which builds
`AssetAny(self, other)`. -/
def orOp (resolve : String → List Asset) (a b : BaseAsset) : BaseAsset :=
  match a with
  | .assetAny objs => assetAnyMk resolve (objs ++ [b])
  | .aliasCondition _ objs => assetAnyMk resolve (objs.map .asset ++ [b])
  | a => assetAnyMk resolve [a, b]

/-- `a & b`: `AssetAll.__and__` splices; every other node uses
`BaseAsset.__and__`, which builds `AssetAll(self, other)`. -/
def andOp (resolve : String → List Asset) (a b : BaseAsset) : BaseAsset :=
  match a with
  | .assetAll objs => assetAllMk resolve (objs ++ [b])
  | a => assetAllMk resolve [a, b]

/-! ### Specification-side definitions (for refinement claims) -/

mutual

/-- Spec wording for C5: the raw depth-first, left-to-right walk of the tree
in stored order, yielding every leaf `(uri, Asset)` pair without
deduplication. -/
def leafWalk : BaseAsset → List (String × Asset)
  | .asset a => [(a.uri, a)]
  | .assetAlias _ _ => []
  | .assetAny objs => leafWalkList objs
  | .assetAll objs => leafWalkList objs
  | .aliasCondition _ objs => objs.map fun a => (a.uri, a)

def leafWalkList : List BaseAsset → List (String × Asset)
  | [] => []
  | o :: os => leafWalk o ++ leafWalkList os

end

/-! ### Character lemmas -/

theorem char_toNat_ofNat {n : Nat} (h : n.isValidChar) : (Char.ofNat n).toNat = n := by
  simp [Char.ofNat, dif_pos h, Char.ofNatAux, Char.toNat, UInt32.toNat]

theorem char_eq_of_toNat_eq {c d : Char} (h : c.toNat = d.toNat) : c = d := by
  apply Char.eq_of_val_eq
  unfold Char.toNat at h
  exact UInt32.toNat.inj h

theorem char_ne_of_toNat_ne {c d : Char} (h : c.toNat ≠ d.toNat) : c ≠ d :=
  fun e => h (congrArg Char.toNat e)

theorem lowerChar_toNat (c : Char) :
    (lowerChar c).toNat =
      if 65 ≤ c.toNat ∧ c.toNat ≤ 90 then c.toNat + 32 else c.toNat := by
  unfold lowerChar
  by_cases h : 65 ≤ c.toNat ∧ c.toNat ≤ 90
  · rw [if_pos h, if_pos h, char_toNat_ofNat (Or.inl (by omega))]
  · rw [if_neg h, if_neg h]

theorem lowerChar_idem (c : Char) : lowerChar (lowerChar c) = lowerChar c := by
  apply char_eq_of_toNat_eq
  have h1 := lowerChar_toNat c
  by_cases h : 65 ≤ c.toNat ∧ c.toNat ≤ 90
  · rw [if_pos h] at h1
    rw [lowerChar_toNat, h1, if_neg (by omega)]
  · rw [if_neg h] at h1
    rw [lowerChar_toNat, h1, if_neg h]

theorem mem_schemeChar_ranges {c : Char} (h : isSchemeChar c = true) :
    (48 ≤ c.toNat ∧ c.toNat ≤ 57) ∨ (65 ≤ c.toNat ∧ c.toNat ≤ 90) ∨
      (97 ≤ c.toNat ∧ c.toNat ≤ 122) ∨ c.toNat = 43 ∨ c.toNat = 45 ∨ c.toNat = 46 := by
  simp only [isSchemeChar, isAsciiAlpha, isAsciiDigit, Bool.or_eq_true, beq_iff_eq,
    decide_eq_true_eq] at h
  rcases h with (((h | h) | h) | h) | h
  · tauto
  · tauto
  · subst h; right; right; right; left; rfl
  · subst h; right; right; right; right; left; rfl
  · subst h; right; right; right; right; right; rfl

theorem isAsciiAlpha_toNat {c : Char} (h : isAsciiAlpha c = true) :
    (65 ≤ c.toNat ∧ c.toNat ≤ 90) ∨ (97 ≤ c.toNat ∧ c.toNat ≤ 122) := by
  simpa [isAsciiAlpha] using h

theorem isAsciiAlpha_lowerChar {c : Char} (h : isAsciiAlpha c = true) :
    isAsciiAlpha (lowerChar c) = true := by
  have h2 := isAsciiAlpha_toNat h
  simp only [isAsciiAlpha, decide_eq_true_eq, lowerChar_toNat]
  by_cases hc : 65 ≤ c.toNat ∧ c.toNat ≤ 90
  · rw [if_pos hc]; omega
  · rw [if_neg hc]; omega

theorem isSchemeChar_lowerChar {c : Char} (h : isSchemeChar c = true) :
    isSchemeChar (lowerChar c) = true := by
  have h2 := mem_schemeChar_ranges h
  simp only [isSchemeChar, isAsciiAlpha, isAsciiDigit, Bool.or_eq_true, beq_iff_eq,
    decide_eq_true_eq]
  by_cases hc : 65 ≤ c.toNat ∧ c.toNat ≤ 90
  · left; left; left; left
    rw [lowerChar_toNat, if_pos hc]; omega
  · have he : lowerChar c = c := by
      apply char_eq_of_toNat_eq; rw [lowerChar_toNat, if_neg hc]
    rw [he]
    simpa [isSchemeChar, isAsciiAlpha, isAsciiDigit] using h

theorem lowerChar_eq_self_of_not_upper {c : Char} (h : ¬(65 ≤ c.toNat ∧ c.toNat ≤ 90)) :
    lowerChar c = c := by
  apply char_eq_of_toNat_eq; rw [lowerChar_toNat, if_neg h]

/-- Scheme characters are printable and are none of the delimiters the
round-trip argument cares about. -/
theorem schemeChar_clean {c : Char} (h : isSchemeChar c = true) :
    32 < c.toNat ∧ c.toNat ≠ 58 ∧ isUnsafeUrlChar c = false := by
  have h2 := mem_schemeChar_ranges h
  refine ⟨by omega, by omega, ?_⟩
  simp only [isUnsafeUrlChar, Bool.or_eq_false_iff, beq_eq_false_iff_ne]
  have e1 : ('\t' : Char).toNat = 9 := rfl
  have e2 : ('\r' : Char).toNat = 13 := rfl
  have e3 : ('\n' : Char).toNat = 10 := rfl
  exact ⟨⟨char_ne_of_toNat_ne (by omega), char_ne_of_toNat_ne (by omega)⟩,
    char_ne_of_toNat_ne (by omega)⟩

theorem isAsciiAlpha_isSchemeChar {c : Char} (h : isAsciiAlpha c = true) :
    isSchemeChar c = true := by
  simp [isSchemeChar, h]

/-! ### `breakAt` and `splitOnChar` lemmas -/

theorem breakAt_not_mem {ch : Char} : ∀ {l : List Char}, ch ∉ l → breakAt ch l = (l, none)
  | [], _ => rfl
  | c :: cs, h => by
    have hc : c ≠ ch := fun e => h (e ▸ List.mem_cons_self c cs)
    have hcs : ch ∉ cs := fun m => h (List.mem_cons_of_mem c m)
    simp [breakAt, hc, breakAt_not_mem hcs]

theorem breakAt_append {ch : Char} :
    ∀ {l₁ : List Char}, ch ∉ l₁ → ∀ l₂, breakAt ch (l₁ ++ ch :: l₂) = (l₁, some l₂)
  | [], _, l₂ => by simp [breakAt]
  | c :: cs, h, l₂ => by
    have hc : c ≠ ch := fun e => h (e ▸ List.mem_cons_self c cs)
    have hcs : ch ∉ cs := fun m => h (List.mem_cons_of_mem c m)
    simp [breakAt, hc, breakAt_append hcs l₂]

theorem breakAt_fst_not_mem {ch : Char} : ∀ {l : List Char}, ch ∉ (breakAt ch l).1
  | [] => by simp [breakAt]
  | c :: cs => by
    by_cases hc : c = ch
    · simp [breakAt, hc]
    · simp only [breakAt, if_neg hc]
      intro m
      rcases List.mem_cons.mp m with e | m2
      · exact hc e.symm
      · exact breakAt_fst_not_mem m2

theorem breakAt_recover_some {ch : Char} : ∀ {l r : List Char},
    (breakAt ch l).2 = some r → l = (breakAt ch l).1 ++ ch :: r
  | [], r => by simp [breakAt]
  | c :: cs, r => by
    by_cases hc : c = ch
    · intro h
      simp [breakAt, hc] at h ⊢
      simp [h]
    · simp only [breakAt, if_neg hc]
      intro h
      have := breakAt_recover_some (l := cs) (r := r) h
      simp [← this]

theorem breakAt_recover_none {ch : Char} : ∀ {l : List Char},
    (breakAt ch l).2 = none → (breakAt ch l).1 = l
  | [] => by simp [breakAt]
  | c :: cs => by
    by_cases hc : c = ch
    · simp [breakAt, hc]
    · simp only [breakAt, if_neg hc]
      intro h
      simp [breakAt_recover_none (l := cs) h]

theorem breakAt_none_iff {ch : Char} : ∀ {l : List Char},
    (breakAt ch l).2 = none ↔ ch ∉ l
  | [] => by simp [breakAt]
  | c :: cs => by
    by_cases hc : c = ch
    · simp [breakAt, hc]
    · simp only [breakAt, if_neg hc]
      rw [breakAt_none_iff]
      simp
      intro
      exact fun e => hc e.symm

theorem splitOnChar_ne_nil {ch : Char} : ∀ {l : List Char}, splitOnChar ch l ≠ []
  | [] => by simp [splitOnChar]
  | c :: cs => by
    simp only [splitOnChar]
    by_cases hc : c = ch <;> simp [hc]

theorem splitOnChar_not_mem {ch : Char} : ∀ {l : List Char}, ch ∉ l → splitOnChar ch l = [l]
  | [], _ => rfl
  | c :: cs, h => by
    have hc : c ≠ ch := fun e => h (e ▸ List.mem_cons_self c cs)
    have hcs : ch ∉ cs := fun m => h (List.mem_cons_of_mem c m)
    simp [splitOnChar, hc, splitOnChar_not_mem hcs]

theorem splitOnChar_append {ch : Char} :
    ∀ {l₁ : List Char}, ch ∉ l₁ → ∀ l₂, splitOnChar ch (l₁ ++ ch :: l₂) = l₁ :: splitOnChar ch l₂
  | [], _, l₂ => by simp [splitOnChar]
  | c :: cs, h, l₂ => by
    have hc : c ≠ ch := fun e => h (e ▸ List.mem_cons_self c cs)
    have hcs : ch ∉ cs := fun m => h (List.mem_cons_of_mem c m)
    have ih := splitOnChar_append hcs l₂
    simp only [List.cons_append, splitOnChar, if_neg hc]
    rw [show cs.append (ch :: l₂) = cs ++ ch :: l₂ from rfl, ih]
    simp

theorem splitOnChar_intercalate {ch : Char} :
    ∀ {fs : List (List Char)}, fs ≠ [] → (∀ f ∈ fs, ch ∉ f) →
      splitOnChar ch (List.intercalate [ch] fs) = fs
  | [], h, _ => absurd rfl h
  | [f], _, hf => by
    simp only [List.intercalate]
    simpa using splitOnChar_not_mem (hf f (by simp))
  | f :: g :: fs, _, hf => by
    have step : List.intercalate [ch] (f :: g :: fs) = f ++ ch :: List.intercalate [ch] (g :: fs) := by
      simp [List.intercalate]
    rw [step, splitOnChar_append (hf f (by simp)),
      splitOnChar_intercalate (by simp) (fun x hx => hf x (List.mem_cons_of_mem f hx))]

/-! ### Hex and UTF-8 lemmas -/

theorem hexDigitUpper_spec : ∀ b, b < 16 →
    isHexDigitChar (hexDigitUpper b) = true ∧ hexVal (hexDigitUpper b) = b := by decide

theorem hexDigitUpper_ranges : ∀ b, b < 16 →
    (48 ≤ (hexDigitUpper b).toNat ∧ (hexDigitUpper b).toNat ≤ 57) ∨
      (65 ≤ (hexDigitUpper b).toNat ∧ (hexDigitUpper b).toNat ≤ 70) := by decide

theorem char_valid_toNat (c : Char) :
    c.toNat < 0xd800 ∨ (0xdfff < c.toNat ∧ c.toNat < 0x110000) :=
  c.valid

theorem utf8Bytes_lt_256 {c : Char} : ∀ b ∈ utf8Bytes c, b < 256 := by
  have hv := char_valid_toNat c
  intro b hb
  unfold utf8Bytes at hb
  by_cases h1 : c.toNat < 0x80
  · rw [if_pos h1] at hb; simp at hb; omega
  · rw [if_neg h1] at hb
    by_cases h2 : c.toNat < 0x800
    · rw [if_pos h2] at hb; simp at hb
      rcases hb with hb | hb <;> omega
    · rw [if_neg h2] at hb
      by_cases h3 : c.toNat < 0x10000
      · rw [if_pos h3] at hb; simp at hb
        rcases hb with hb | hb | hb <;> omega
      · rw [if_neg h3] at hb; simp at hb
        rcases hb with hb | hb | hb | hb <;> omega

theorem utf8Bytes_ne_nil {c : Char} : utf8Bytes c ≠ [] := by
  unfold utf8Bytes
  by_cases h1 : c.toNat < 0x80
  · simp [h1]
  · rw [if_neg h1]
    by_cases h2 : c.toNat < 0x800
    · simp [h2]
    · rw [if_neg h2]
      by_cases h3 : c.toNat < 0x10000 <;> simp [h3]

theorem utf8Step2_length (b0 : Nat) : ∀ rest : List Nat,
    (utf8Step2 b0 rest).2.length ≤ rest.length
  | [] => by simp [utf8Step2]
  | b1 :: r1 => by
    simp only [utf8Step2]
    split <;> simp

theorem utf8Step3_length (b0 : Nat) : ∀ rest : List Nat,
    (utf8Step3 b0 rest).2.length ≤ rest.length
  | [] => by simp [utf8Step3]
  | b1 :: r1 => by
    simp only [utf8Step3]
    split
    · match r1 with
      | [] => simp
      | b2 :: r2 =>
        simp only
        split <;> simp <;> omega
    · simp

theorem utf8Step4_length (b0 : Nat) : ∀ rest : List Nat,
    (utf8Step4 b0 rest).2.length ≤ rest.length
  | [] => by simp [utf8Step4]
  | b1 :: r1 => by
    simp only [utf8Step4]
    split
    · match r1 with
      | [] => simp
      | b2 :: r2 =>
        simp only
        split
        · match r2 with
          | [] => simp
          | b3 :: r3 =>
            simp only
            split <;> simp <;> omega
        · simp
    · simp

theorem utf8Step_length (b0 : Nat) (rest : List Nat) :
    (utf8Step b0 rest).2.length ≤ rest.length := by
  unfold utf8Step
  split
  · simp
  · split
    · exact utf8Step2_length b0 rest
    · split
      · exact utf8Step3_length b0 rest
      · split
        · exact utf8Step4_length b0 rest
        · simp

theorem utf8DecodeAux_fuel : ∀ (f1 : Nat) {f2 : Nat} {bs : List Nat},
    bs.length ≤ f1 → bs.length ≤ f2 → utf8DecodeAux f1 bs = utf8DecodeAux f2 bs := by
  intro f1
  induction f1 with
  | zero =>
    intro f2 bs h1 _h2
    have : bs = [] := List.length_eq_zero.mp (Nat.le_zero.mp h1)
    subst this
    cases f2 <;> rfl
  | succ g1 ih =>
    intro f2 bs h1 h2
    match bs with
    | [] => cases f2 <;> rfl
    | b0 :: rest =>
      match f2 with
      | 0 => simp at h2
      | g2 + 1 =>
        simp only [utf8DecodeAux]
        have hs := utf8Step_length b0 rest
        simp only [List.length_cons] at h1 h2
        have he := @ih g2 (utf8Step b0 rest).2 (by omega) (by omega)
        rw [he]

theorem utf8Decode_utf8Bytes (c : Char) (rest : List Nat) :
    utf8Decode (utf8Bytes c ++ rest) = c :: utf8Decode rest := by
  rcases char_valid_toNat c with hv | hv
  all_goals {
    have main : ∀ (b0 : Nat) (tl : List Nat), utf8Bytes c = b0 :: tl →
        utf8Step b0 (tl ++ rest) = (c, rest) →
        utf8Decode (utf8Bytes c ++ rest) = c :: utf8Decode rest := by
      intro b0 tl hb hstep
      rw [hb]
      show utf8DecodeAux ((b0 :: tl ++ rest).length) (b0 :: (tl ++ rest)) = _
      rw [show (b0 :: tl ++ rest).length = (tl ++ rest).length + 1 by simp]
      rw [utf8DecodeAux, hstep]
      show c :: utf8DecodeAux (tl ++ rest).length rest = _
      rw [utf8DecodeAux_fuel (tl ++ rest).length (by simp) (le_refl _)]
      rfl
    by_cases h1 : c.toNat < 0x80
    · refine main c.toNat [] ?_ ?_
      · unfold utf8Bytes
        rw [if_pos h1]
      · show utf8Step c.toNat rest = (c, rest)
        unfold utf8Step
        rw [if_pos h1, Char.ofNat_toNat]
    · by_cases h2 : c.toNat < 0x800
      · refine main (0xC0 + c.toNat / 0x40) [0x80 + c.toNat % 0x40] ?_ ?_
        · unfold utf8Bytes
          rw [if_neg h1, if_pos h2]
        · show utf8Step _ (_ :: rest) = (c, rest)
          unfold utf8Step
          rw [if_neg (by omega), if_pos (by constructor <;> omega)]
          simp only [utf8Step2]
          rw [if_pos (by simp [isContByte]; omega)]
          rw [show (0xC0 + c.toNat / 0x40 - 0xC0) * 0x40 + (0x80 + c.toNat % 0x40 - 0x80)
            = c.toNat by omega, Char.ofNat_toNat]
      · by_cases h3 : c.toNat < 0x10000
        · refine main (0xE0 + c.toNat / 0x1000)
            [0x80 + c.toNat / 0x40 % 0x40, 0x80 + c.toNat % 0x40] ?_ ?_
          · unfold utf8Bytes
            rw [if_neg h1, if_neg h2, if_pos h3]
          · show utf8Step _ (_ :: _ :: rest) = (c, rest)
            unfold utf8Step
            rw [if_neg (by omega), if_neg (by omega), if_pos (by constructor <;> omega)]
            simp only [utf8Step3]
            have hLo : utf8Cont3Lo (0xE0 + c.toNat / 0x1000) ≤ 0x80 + c.toNat / 0x40 % 0x40 := by
              unfold utf8Cont3Lo
              split
              · next he => omega
              · omega
            have hHi : 0x80 + c.toNat / 0x40 % 0x40 < utf8Cont3Hi (0xE0 + c.toNat / 0x1000) := by
              unfold utf8Cont3Hi
              split
              · next he => omega
              · omega
            rw [if_pos ⟨hLo, hHi⟩, if_pos (by simp [isContByte]; omega)]
            rw [show (0xE0 + c.toNat / 0x1000 - 0xE0) * 0x1000 +
              (0x80 + c.toNat / 0x40 % 0x40 - 0x80) * 0x40 + (0x80 + c.toNat % 0x40 - 0x80)
              = c.toNat by omega, Char.ofNat_toNat]
        · refine main (0xF0 + c.toNat / 0x40000)
            [0x80 + c.toNat / 0x1000 % 0x40, 0x80 + c.toNat / 0x40 % 0x40,
              0x80 + c.toNat % 0x40] ?_ ?_
          · unfold utf8Bytes
            rw [if_neg h1, if_neg h2, if_neg h3]
          · show utf8Step _ (_ :: _ :: _ :: rest) = (c, rest)
            unfold utf8Step
            rw [if_neg (by omega), if_neg (by omega), if_neg (by omega),
              if_pos (by constructor <;> omega)]
            simp only [utf8Step4]
            have hLo : utf8Cont4Lo (0xF0 + c.toNat / 0x40000) ≤ 0x80 + c.toNat / 0x1000 % 0x40 := by
              unfold utf8Cont4Lo
              split
              · next he => omega
              · omega
            have hHi : 0x80 + c.toNat / 0x1000 % 0x40 < utf8Cont4Hi (0xF0 + c.toNat / 0x40000) := by
              unfold utf8Cont4Hi
              split
              · next he => omega
              · omega
            rw [if_pos ⟨hLo, hHi⟩, if_pos (by simp [isContByte]; omega),
              if_pos (by simp [isContByte]; omega)]
            rw [show (0xF0 + c.toNat / 0x40000 - 0xF0) * 0x40000 +
              (0x80 + c.toNat / 0x1000 % 0x40 - 0x80) * 0x1000 +
              (0x80 + c.toNat / 0x40 % 0x40 - 0x80) * 0x40 + (0x80 + c.toNat % 0x40 - 0x80)
              = c.toNat by omega, Char.ofNat_toNat]
  }

theorem utf8Decode_flatMap : ∀ s : List Char, utf8Decode (s.flatMap utf8Bytes) = s
  | [] => rfl
  | c :: cs => by
    rw [List.flatMap_cons, utf8Decode_utf8Bytes, utf8Decode_flatMap cs]

theorem utf8Decode_ne_nil {bs : List Nat} (h : bs ≠ []) : utf8Decode bs ≠ [] := by
  match bs with
  | [] => exact absurd rfl h
  | b :: r =>
    unfold utf8Decode
    rw [List.length_cons, utf8DecodeAux]
    simp

/-! ### Quote / unquote round trip -/

theorem isAlwaysSafe_toNat {c : Char} (h : isAlwaysSafe c = true) :
    (48 ≤ c.toNat ∧ c.toNat ≤ 57) ∨ (65 ≤ c.toNat ∧ c.toNat ≤ 90) ∨
      (97 ≤ c.toNat ∧ c.toNat ≤ 122) ∨ c.toNat = 95 ∨ c.toNat = 46 ∨
      c.toNat = 45 ∨ c.toNat = 126 := by
  simp only [isAlwaysSafe, isAsciiAlpha, isAsciiDigit, Bool.or_eq_true, beq_iff_eq,
    decide_eq_true_eq] at h
  rcases h with ((((h | h) | h) | h) | h) | h
  · tauto
  · tauto
  · subst h; right; right; right; left; rfl
  · subst h; right; right; right; right; left; rfl
  · subst h; right; right; right; right; right; left; rfl
  · subst h; right; right; right; right; right; right; rfl

theorem mem_quotePlusChar_toNat {c c' : Char} (h : c' ∈ quotePlusChar c) :
    32 < c'.toNat ∧ c'.toNat ≠ 35 ∧ c'.toNat ≠ 38 ∧ c'.toNat ≠ 61 ∧ c'.toNat < 127 := by
  unfold quotePlusChar at h
  by_cases hs : isAlwaysSafe c = true
  · rw [if_pos hs] at h
    simp at h
    subst h
    have := isAlwaysSafe_toNat hs
    refine ⟨by omega, by omega, by omega, by omega, by omega⟩
  · rw [if_neg hs] at h
    by_cases hsp : c = ' '
    · rw [if_pos hsp] at h
      simp at h
      subst h
      refine ⟨by decide, by decide, by decide, by decide, by decide⟩
    · rw [if_neg hsp] at h
      simp only [List.mem_flatMap] at h
      obtain ⟨b, hb, hc⟩ := h
      have hblt := utf8Bytes_lt_256 b hb
      unfold percentByte at hc
      simp at hc
      rcases hc with hc | hc | hc
      · subst hc
        refine ⟨by decide, by decide, by decide, by decide, by decide⟩
      · subst hc
        have := hexDigitUpper_ranges (b / 16) (by omega)
        refine ⟨by omega, by omega, by omega, by omega, by omega⟩
      · subst hc
        have := hexDigitUpper_ranges (b % 16) (by omega)
        refine ⟨by omega, by omega, by omega, by omega, by omega⟩

theorem mem_quote_plus_toNat {s : List Char} {c' : Char} (h : c' ∈ quote_plus s) :
    32 < c'.toNat ∧ c'.toNat ≠ 35 ∧ c'.toNat ≠ 38 ∧ c'.toNat ≠ 61 ∧ c'.toNat < 127 := by
  unfold quote_plus at h
  simp only [List.mem_flatMap] at h
  obtain ⟨c, _, hc⟩ := h
  exact mem_quotePlusChar_toNat hc

theorem quotePlusChar_ne_nil (c : Char) : quotePlusChar c ≠ [] := by
  unfold quotePlusChar
  by_cases hs : isAlwaysSafe c = true
  · simp [hs]
  · rw [if_neg hs]
    by_cases hsp : c = ' '
    · simp [hsp]
    · rw [if_neg hsp]
      rcases hb : utf8Bytes c with _ | ⟨b, bs⟩
      · exact absurd hb utf8Bytes_ne_nil
      · simp [percentByte]

theorem quote_plus_ne_nil {s : List Char} (h : s ≠ []) : quote_plus s ≠ [] := by
  match s with
  | [] => exact absurd rfl h
  | c :: cs =>
    unfold quote_plus
    rw [List.flatMap_cons]
    intro he
    rcases List.append_eq_nil.mp he with ⟨h1, _⟩
    exact quotePlusChar_ne_nil c h1

theorem unquoteTokenize_ascii {c : Char} (l : List Char)
    (h1 : c.toNat < 128) (h2 : c ≠ '%') :
    unquoteTokenize (c :: l) = Sum.inl c.toNat :: unquoteTokenize l := by
  rw [unquoteTokenize.eq_def]
  split
  · next heq =>
    injection heq with he _
    exact absurd he h2
  · next heq =>
    injection heq with he1 he2
    subst he1; subst he2
    rw [if_pos h1]
  · next heq => simp at heq

theorem unquoteTokenize_percentByte {b : Nat} (l : List Char) (hb : b < 256) :
    unquoteTokenize (percentByte b ++ l) = Sum.inl b :: unquoteTokenize l := by
  have hd1 := hexDigitUpper_spec (b / 16) (by omega)
  have hd2 := hexDigitUpper_spec (b % 16) (by omega)
  show unquoteTokenize ('%' :: hexDigitUpper (b / 16) :: hexDigitUpper (b % 16) :: l) = _
  rw [unquoteTokenize]
  rw [if_pos (by rw [hd1.1, hd2.1]; rfl)]
  rw [hd1.2, hd2.2]
  congr 2
  omega

theorem unquoteTokenize_percentBytes {bs : List Nat} (l : List Char)
    (hbs : ∀ b ∈ bs, b < 256) :
    unquoteTokenize (bs.flatMap percentByte ++ l) = bs.map Sum.inl ++ unquoteTokenize l := by
  induction bs with
  | nil => simp
  | cons b bs ih =>
    rw [List.flatMap_cons, List.append_assoc,
      unquoteTokenize_percentByte _ (hbs b (by simp)), List.map_cons]
    rw [ih (fun x hx => hbs x (List.mem_cons_of_mem b hx))]
    rfl

theorem map_plusToSpace_eq_self : ∀ {l : List Char}, (∀ x ∈ l, x ≠ '+') →
    (l.map fun c => if c = '+' then ' ' else c) = l
  | [], _ => rfl
  | c :: cs, h => by
    rw [List.map_cons, if_neg (h c (by simp)),
      map_plusToSpace_eq_self (fun x hx => h x (List.mem_cons_of_mem c hx))]

theorem utf8Bytes_ascii {c : Char} (h : c.toNat < 128) : utf8Bytes c = [c.toNat] := by
  unfold utf8Bytes
  rw [if_pos h]

theorem unquoteTokenize_quote (s : List Char) :
    unquoteTokenize ((quote_plus s).map fun c => if c = '+' then ' ' else c) =
      (s.flatMap utf8Bytes).map Sum.inl := by
  induction s with
  | nil => rfl
  | cons c cs ih =>
    rw [show quote_plus (c :: cs) = quotePlusChar c ++ quote_plus cs from
      List.flatMap_cons .., List.map_append, List.flatMap_cons, List.map_append]
    by_cases hs : isAlwaysSafe c = true
    · have hrange := isAlwaysSafe_toNat hs
      have hplus : ('+' : Char).toNat = 43 := rfl
      have hpct : ('%' : Char).toNat = 37 := rfl
      have hq : quotePlusChar c = [c] := by unfold quotePlusChar; rw [if_pos hs]
      rw [hq, List.map_cons, List.map_nil, List.singleton_append,
        if_neg (char_ne_of_toNat_ne (by omega)),
        unquoteTokenize_ascii _ (by omega) (char_ne_of_toNat_ne (by omega)), ih,
        utf8Bytes_ascii (by omega)]
      rfl
    · by_cases hsp : c = ' '
      · subst hsp
        have hq : quotePlusChar ' ' = ['+'] := by
          unfold quotePlusChar; rw [if_neg hs, if_pos rfl]
        rw [hq, List.map_cons, List.map_nil, List.singleton_append, if_pos rfl,
          unquoteTokenize_ascii _ (by decide) (by decide), ih,
          utf8Bytes_ascii (by decide)]
        rfl
      · have hq : quotePlusChar c = (utf8Bytes c).flatMap percentByte := by
          unfold quotePlusChar; rw [if_neg hs, if_neg hsp]
        have hnoplus : ∀ x ∈ (utf8Bytes c).flatMap percentByte, x ≠ '+' := by
          intro x hx
          simp only [List.mem_flatMap] at hx
          obtain ⟨b, hb, hxc⟩ := hx
          have hblt := utf8Bytes_lt_256 b hb
          unfold percentByte at hxc
          simp at hxc
          have hp : ('+' : Char).toNat = 43 := rfl
          rcases hxc with hxc | hxc | hxc
          · subst hxc; decide
          · subst hxc
            have := hexDigitUpper_ranges (b / 16) (by omega)
            exact char_ne_of_toNat_ne (by omega)
          · subst hxc
            have := hexDigitUpper_ranges (b % 16) (by omega)
            exact char_ne_of_toNat_ne (by omega)
        rw [hq, map_plusToSpace_eq_self hnoplus,
          unquoteTokenize_percentBytes _ utf8Bytes_lt_256, ih]

theorem unquote_plus_quote_plus (s : List Char) : unquote_plus (quote_plus s) = s := by
  unfold unquote_plus unquote
  rw [unquoteTokenize_quote]
  have detok : ∀ (bs : List Nat) (acc : List Nat),
      unquoteDetokenize acc (bs.map Sum.inl) = utf8Decode (acc.reverse ++ bs) := by
    intro bs
    induction bs with
    | nil => intro acc; simp [unquoteDetokenize]
    | cons b bs ih =>
      intro acc
      rw [List.map_cons]
      show unquoteDetokenize (b :: acc) (bs.map Sum.inl) = _
      rw [ih (b :: acc)]
      simp
  rw [detok _ [], List.reverse_nil, List.nil_append, utf8Decode_flatMap]

theorem unquoteTokenize_ne_nil {l : List Char} (h : l ≠ []) : unquoteTokenize l ≠ [] := by
  rw [unquoteTokenize.eq_def]
  split
  · split <;> simp
  · split <;> simp
  · exact absurd rfl h

theorem unquoteDetokenize_ne_nil : ∀ {ts : List (Nat ⊕ Char)} {acc : List Nat},
    ts ≠ [] ∨ acc ≠ [] → unquoteDetokenize acc ts ≠ [] := by
  intro ts
  induction ts with
  | nil =>
    intro acc h
    rcases h with h | h
    · exact absurd rfl h
    · show utf8Decode acc.reverse ≠ []
      exact utf8Decode_ne_nil (by simpa using h)
  | cons t ts ih =>
    intro acc h
    match t with
    | Sum.inl b =>
      show unquoteDetokenize (b :: acc) ts ≠ []
      exact ih (Or.inr (by simp))
    | Sum.inr c =>
      show utf8Decode acc.reverse ++ c :: unquoteDetokenize [] ts ≠ []
      simp

theorem unquote_plus_ne_nil {l : List Char} (h : l ≠ []) : unquote_plus l ≠ [] := by
  unfold unquote_plus unquote
  apply unquoteDetokenize_ne_nil
  left
  apply unquoteTokenize_ne_nil
  simpa using h

/-! ### `parse_qsl` / `urlencode` round trip and query canonicalization -/

theorem intercalate_cons₂ {ch : Char} (f g : List Char) (fs : List (List Char)) :
    List.intercalate [ch] (f :: g :: fs) = f ++ ch :: List.intercalate [ch] (g :: fs) := by
  simp [List.intercalate]

theorem quote_plus_ne_eq {k : List Char} : ∀ x ∈ quote_plus k, x ≠ '=' := by
  intro x hx
  have hr := mem_quote_plus_toNat hx
  have he : ('=' : Char).toNat = 61 := rfl
  exact char_ne_of_toNat_ne (by omega)

theorem quote_plus_ne_amp {k : List Char} : ∀ x ∈ quote_plus k, x ≠ '&' := by
  intro x hx
  have hr := mem_quote_plus_toNat hx
  have he : ('&' : Char).toNat = 38 := rfl
  exact char_ne_of_toNat_ne (by omega)

/-- The encoded field of one pair. -/
theorem parseQslField_encode {p : List Char × List Char} (hv : p.2 ≠ []) :
    parseQslField (quote_plus p.1 ++ '=' :: quote_plus p.2) = some p := by
  unfold parseQslField
  rw [if_neg (by simp)]
  rw [breakAt_append (fun m => quote_plus_ne_eq '=' m rfl) _]
  show (if quote_plus p.2 = [] then (none : Option (List Char × List Char))
    else some (unquote_plus (quote_plus p.1), unquote_plus (quote_plus p.2))) = some p
  rw [if_neg (quote_plus_ne_nil hv)]
  rw [unquote_plus_quote_plus, unquote_plus_quote_plus]

theorem filterMap_some_id {α : Type} {f : α → Option α} :
    ∀ {l : List α}, (∀ p ∈ l, f p = some p) → l.filterMap f = l
  | [], _ => rfl
  | p :: ps, h => by
    rw [List.filterMap_cons, h p (by simp),
      filterMap_some_id (fun x hx => h x (List.mem_cons_of_mem p hx))]

theorem amp_not_mem_field (p : List Char × List Char) :
    '&' ∉ quote_plus p.1 ++ '=' :: quote_plus p.2 := by
  intro hm
  rcases List.mem_append.mp hm with hm | hm
  · exact quote_plus_ne_amp '&' hm rfl
  · rcases List.mem_cons.mp hm with hm | hm
    · simp at hm
    · exact quote_plus_ne_amp '&' hm rfl

theorem parse_qsl_urlencode : ∀ {l : List (List Char × List Char)},
    (∀ p ∈ l, p.2 ≠ []) → parse_qsl (urlencode l) = l := by
  intro l hv
  match l with
  | [] => simp [urlencode, parse_qsl, List.intercalate]
  | p :: ps =>
    have hfields : ∀ f ∈ (p :: ps).map (fun q => quote_plus q.1 ++ '=' :: quote_plus q.2),
        '&' ∉ f := by
      intro f hf
      simp only [List.mem_map] at hf
      obtain ⟨q, _, hq⟩ := hf
      rw [← hq]
      exact amp_not_mem_field q
    have hsplit := @splitOnChar_intercalate '&'
      ((p :: ps).map fun q => quote_plus q.1 ++ '=' :: quote_plus q.2)
      (by simp) hfields
    have hne : List.intercalate ['&']
        ((p :: ps).map fun q => quote_plus q.1 ++ '=' :: quote_plus q.2) ≠ [] := by
      intro he
      have : (quote_plus p.1 ++ '=' :: quote_plus p.2) ∈ splitOnChar '&' [] := by
        rw [← he, hsplit]
        simp
      simp [splitOnChar] at this
    unfold urlencode parse_qsl
    rw [if_neg hne, hsplit, List.filterMap_map]
    apply filterMap_some_id
    intro q hq
    exact parseQslField_encode (hv q hq)

theorem parse_qsl_values_ne_nil {q : List Char} : ∀ p ∈ parse_qsl q, p.2 ≠ [] := by
  intro p hp
  unfold parse_qsl at hp
  by_cases hq : q = []
  · rw [if_pos hq] at hp; simp at hp
  · rw [if_neg hq] at hp
    simp only [List.mem_filterMap] at hp
    obtain ⟨f, _, hf⟩ := hp
    unfold parseQslField at hf
    by_cases hfe : f = []
    · rw [if_pos hfe] at hf; simp at hf
    · rw [if_neg hfe] at hf
      rcases hb : breakAt '=' f with ⟨n, vo⟩
      rw [hb] at hf
      rcases vo with _ | v
      · simp at hf
      · simp only at hf
        by_cases hve : v = []
        · rw [if_pos hve] at hf; simp at hf
        · rw [if_neg hve] at hf
          simp at hf
          rw [← hf]
          exact unquote_plus_ne_nil hve

theorem sortPairs_idem (l : List (List Char × List Char)) :
    sortPairs (sortPairs l) = sortPairs l :=
  List.Sorted.insertionSort_eq (List.sorted_insertionSort pairLe l)

theorem mem_sortPairs {p : List Char × List Char} {l : List (List Char × List Char)} :
    p ∈ sortPairs l ↔ p ∈ l :=
  (List.perm_insertionSort pairLe l).mem_iff

theorem canonicalQuery_idem (q : List Char) :
    canonicalQuery (canonicalQuery q) = canonicalQuery q := by
  unfold canonicalQuery
  rw [parse_qsl_urlencode (fun p hp => parse_qsl_values_ne_nil p (mem_sortPairs.mp hp)),
    sortPairs_idem]

theorem mem_intercalate_char {ch c : Char} : ∀ {fs : List (List Char)},
    c ∈ List.intercalate [ch] fs → c = ch ∨ ∃ f ∈ fs, c ∈ f := by
  intro fs
  match fs with
  | [] => intro h; simp [List.intercalate] at h
  | [f] => intro h; simp [List.intercalate] at h; exact Or.inr ⟨f, by simp, h⟩
  | f :: g :: fs =>
    intro h
    rw [intercalate_cons₂] at h
    rcases List.mem_append.mp h with h | h
    · exact Or.inr ⟨f, by simp, h⟩
    · rcases List.mem_cons.mp h with h | h
      · exact Or.inl h
      · rcases mem_intercalate_char h with h | ⟨f2, hf2, hc⟩
        · exact Or.inl h
        · exact Or.inr ⟨f2, List.mem_cons_of_mem f hf2, hc⟩

theorem mem_urlencode_toNat {l : List (List Char × List Char)} {c : Char}
    (h : c ∈ urlencode l) : 32 < c.toNat ∧ c.toNat ≠ 35 := by
  unfold urlencode at h
  rcases mem_intercalate_char h with h | ⟨f, hf, hc⟩
  · subst h; exact ⟨by decide, by decide⟩
  · simp only [List.mem_map] at hf
    obtain ⟨q, _, hq⟩ := hf
    rw [← hq] at hc
    rcases List.mem_append.mp hc with hm | hm
    · have := mem_quote_plus_toNat hm
      exact ⟨this.1, this.2.1⟩
    · rcases List.mem_cons.mp hm with hm | hm
      · subst hm; exact ⟨by decide, by decide⟩
      · have := mem_quote_plus_toNat hm
        exact ⟨this.1, this.2.1⟩

/-! ### `urlsplit` / `urlunsplit` round trip: support lemmas -/

theorem char_eq_iff_toNat {c d : Char} : c = d ↔ c.toNat = d.toNat :=
  ⟨congrArg Char.toNat, char_eq_of_toNat_eq⟩

theorem isUnsafeUrlChar_iff {c : Char} :
    isUnsafeUrlChar c = true ↔ c.toNat = 9 ∨ c.toNat = 13 ∨ c.toNat = 10 := by
  unfold isUnsafeUrlChar
  simp only [Bool.or_eq_true, beq_iff_eq]
  rw [char_eq_iff_toNat, char_eq_iff_toNat, char_eq_iff_toNat]
  have h1 : (Char.toNat '\t') = 9 := rfl
  have h2 : (Char.toNat '\x0d') = 13 := rfl
  have h3 : (Char.toNat '\n') = 10 := rfl
  rw [h1, h2, h3]
  tauto

theorem clean_of_gt_32 {c : Char} (h : 32 < c.toNat) : isUnsafeUrlChar c = false := by
  rw [Bool.eq_false_iff]
  intro hu
  rcases isUnsafeUrlChar_iff.mp hu with h2 | h2 | h2 <;> omega

theorem netlocChar_false_iff {c : Char} :
    netlocChar c = false ↔ c = '/' ∨ c = '?' ∨ c = '#' := by
  unfold netlocChar
  simp
  tauto

theorem takeWhile_append_head_false {p : Char → Bool} :
    ∀ {l₁ l₂ : List Char}, (∀ c ∈ l₁, p c = true) → l₂ ≠ [] →
      p (l₂.headD ' ') = false →
      (l₁ ++ l₂).takeWhile p = l₁ ∧ (l₁ ++ l₂).dropWhile p = l₂
  | [], l₂, _, h2, hh => by
    match l₂ with
    | [] => exact absurd rfl h2
    | c :: cs =>
      simp only [List.headD_cons] at hh
      simp [List.takeWhile_cons, List.dropWhile_cons, hh]
  | c :: cs, l₂, h1, h2, hh => by
    have hc : p c = true := h1 c (by simp)
    have ih := @takeWhile_append_head_false p cs l₂
      (fun x hx => h1 x (List.mem_cons_of_mem c hx)) h2 hh
    simp [List.takeWhile_cons, List.dropWhile_cons, hc, ih.1, ih.2]

theorem breakAt_fst_subset {ch : Char} {l : List Char} :
    ∀ c ∈ (breakAt ch l).1, c ∈ l := by
  intro c hc
  rcases hr : (breakAt ch l).2 with _ | r
  · rw [breakAt_recover_none hr] at hc; exact hc
  · rw [breakAt_recover_some hr]
    exact List.mem_append_left _ hc

theorem breakAt_fst_head {ch : Char} : ∀ {l : List Char},
    (breakAt ch l).1 = [] ∨ (breakAt ch l).1.headD ' ' = l.headD ' '
  | [] => Or.inl rfl
  | c :: cs => by
    by_cases hc : c = ch
    · left; simp [breakAt, hc]
    · right; simp [breakAt, hc]

theorem dropWhile_head_false {p : Char → Bool} :
    ∀ {l : List Char}, l.dropWhile p ≠ [] → p ((l.dropWhile p).headD ' ') = false
  | [], h => absurd rfl h
  | c :: cs, h => by
    by_cases hc : p c = true
    · rw [List.dropWhile_cons, if_pos hc] at h ⊢
      exact dropWhile_head_false h
    · rw [List.dropWhile_cons, if_neg hc]
      simpa using Bool.eq_false_iff.mpr hc

/-! ### `rstrip` lemmas -/

theorem rstripSlashesOrRoot_ne_nil (p : List Char) : rstripSlashesOrRoot p ≠ [] := by
  unfold rstripSlashesOrRoot
  split
  · simp
  · assumption

theorem rstripSlashesOrRoot_subset {p : List Char} :
    ∀ c ∈ rstripSlashesOrRoot p, c = '/' ∨ c ∈ p := by
  intro c hc
  unfold rstripSlashesOrRoot at hc
  split at hc
  · simp at hc; exact Or.inl hc
  · right
    have : c ∈ (p.reverse.dropWhile (· == '/')) := by
      rw [← List.mem_reverse]
      simpa using hc
    have := (List.dropWhile_sublist (· == '/')).subset this
    simpa using this

theorem rstrip_drop_decomp (p : List Char) :
    p = rstripSlashesOrRoot p ++ (p.reverse.takeWhile (· == '/')).reverse ∨
      rstripSlashesOrRoot p = ['/'] := by
  unfold rstripSlashesOrRoot
  split
  · right; rfl
  · left
    conv_lhs => rw [← List.reverse_reverse p, ← List.takeWhile_append_dropWhile (· == '/') p.reverse]
    rw [List.reverse_append]

theorem rstripSlashesOrRoot_head {p : List Char}
    (h : p = [] ∨ p.headD ' ' = '/') : (rstripSlashesOrRoot p).headD ' ' = '/' := by
  rcases rstrip_drop_decomp p with hd | hd
  · rcases h with h | h
    · subst h
      rfl
    · have hne := rstripSlashesOrRoot_ne_nil p
      match hr : rstripSlashesOrRoot p with
      | [] => exact absurd hr hne
      | x :: xs =>
        rw [hr] at hd
        rw [hd] at h
        simpa using h
  · rw [hd]; rfl

/-- From stability (`rstrip p = p`) with a non-`/` head, the reversed list
starts with a non-slash, i.e. there is no trailing slash. -/
theorem rstrip_stable_no_trailing {p : List Char} (hst : rstripSlashesOrRoot p = p)
    (hh : p.headD ' ' ≠ '/') (_hne : p ≠ []) :
    p.reverse.dropWhile (· == '/') = p.reverse := by
  unfold rstripSlashesOrRoot at hst
  split at hst
  · next hnil =>
    rw [← hst] at hh
    simp at hh
  · next hnil =>
    have hdw : p.reverse.dropWhile (· == '/') = p.reverse := by
      have := congrArg List.reverse hst
      rw [List.reverse_reverse] at this
      rw [this]
    exact hdw

theorem rstripSlashesOrRoot_idem (p : List Char) :
    rstripSlashesOrRoot (rstripSlashesOrRoot p) = rstripSlashesOrRoot p := by
  by_cases h0 : (p.reverse.dropWhile (· == '/')).reverse = []
  · have hr : rstripSlashesOrRoot p = ['/'] := by
      unfold rstripSlashesOrRoot
      rw [if_pos h0]
    rw [hr]
    rfl
  · have hr : rstripSlashesOrRoot p = (p.reverse.dropWhile (· == '/')).reverse := by
      unfold rstripSlashesOrRoot
      rw [if_neg h0]
    have hne : p.reverse.dropWhile (· == '/') ≠ [] := by
      intro he
      exact h0 (by rw [he]; rfl)
    have hhead := dropWhile_head_false hne
    rw [hr]
    unfold rstripSlashesOrRoot
    rw [List.reverse_reverse]
    match hd : p.reverse.dropWhile (· == '/') with
    | [] => exact absurd hd hne
    | c :: cs =>
      rw [hd] at hhead
      simp only [List.headD_cons] at hhead
      have hstep : List.dropWhile (· == '/') (c :: cs) = c :: cs := by
        rw [List.dropWhile_cons, if_neg (by simpa using hhead)]
      rw [hstep]
      rw [if_neg (by simp)]

/-- Prepending a slash to a stable, non-slash-headed path is still stable. -/
theorem rstrip_cons_slash {p : List Char} (hst : rstripSlashesOrRoot p = p)
    (hh : p.headD ' ' ≠ '/') (hne : p ≠ []) :
    rstripSlashesOrRoot ('/' :: p) = '/' :: p := by
  have hdw := rstrip_stable_no_trailing hst hh hne
  have hkey : ('/' :: p).reverse.dropWhile (· == '/') = ('/' :: p).reverse := by
    rw [List.reverse_cons]
    match hd : p.reverse with
    | [] => simp at hd; exact absurd hd hne
    | c :: cs =>
      have hch : (c == '/') = false := by
        rw [hd] at hdw
        by_cases hcc : (c == '/') = true
        · rw [List.dropWhile_cons, if_pos hcc] at hdw
          have hlen := (List.dropWhile_sublist (α := Char) (· == '/') (l := cs)).length_le
          have h2 := congrArg List.length hdw
          simp only [List.length_cons] at h2
          omega
        · simpa using hcc
      rw [List.cons_append, List.dropWhile_cons, if_neg (by simpa using hch)]
  unfold rstripSlashesOrRoot
  rw [hkey, List.reverse_reverse]
  rw [if_neg (by simp)]

/-! ### `rpartition`, `splitTail`, `splitScheme` lemmas -/

theorem rpartitionChar_of_not_mem {ch : Char} {l : List Char} (h : ch ∉ l) :
    rpartitionChar ch l = ([], false, l) := by
  unfold rpartitionChar
  rw [breakAt_not_mem (by simpa using h)]

theorem rpartitionChar_no_at (ch : Char) (l : List Char) :
    ch ∉ (rpartitionChar ch l).2.2 := by
  unfold rpartitionChar
  rcases hb : breakAt ch l.reverse with ⟨revAfter, ro⟩
  rcases ro with _ | revBefore
  · simp only
    intro hm
    have hnone : (breakAt ch l.reverse).2 = none := by rw [hb]
    have := breakAt_none_iff.mp hnone
    exact this (by simpa using hm)
  · simp only
    intro hm
    have hfst : revAfter = (breakAt ch l.reverse).1 := by rw [hb]
    rw [List.mem_reverse] at hm
    rw [hfst] at hm
    exact breakAt_fst_not_mem hm

theorem rpartitionChar_last_subset {ch : Char} {l : List Char} :
    ∀ c ∈ (rpartitionChar ch l).2.2, c ∈ l := by
  intro c hc
  unfold rpartitionChar at hc
  rcases hb : breakAt ch l.reverse with ⟨revAfter, ro⟩
  rw [hb] at hc
  rcases ro with _ | revBefore
  · simpa using hc
  · simp only at hc
    rw [List.mem_reverse] at hc
    have hfst : revAfter = (breakAt ch l.reverse).1 := by rw [hb]
    rw [hfst] at hc
    have := breakAt_fst_subset c hc
    simpa using this

theorem rpartitionChar_nil (ch : Char) : rpartitionChar ch [] = ([], false, []) := rfl

theorem splitTail_not_mem {ch : Char} {l : List Char} (h : ch ∉ l) :
    splitTail ch l = (l, []) := by
  unfold splitTail
  rw [breakAt_not_mem h]

theorem splitTail_append {ch : Char} {l₁ : List Char} (h : ch ∉ l₁) (l₂ : List Char) :
    splitTail ch (l₁ ++ ch :: l₂) = (l₁, l₂) := by
  unfold splitTail
  rw [breakAt_append h]

theorem splitTail_fst_not_mem (ch : Char) (l : List Char) : ch ∉ (splitTail ch l).1 := by
  unfold splitTail
  rcases hb : breakAt ch l with ⟨b, ro⟩
  have hfst : b = (breakAt ch l).1 := by rw [hb]
  rcases ro with _ | r <;> simp only <;> rw [hfst] <;> exact breakAt_fst_not_mem

theorem splitTail_fst_subset {ch : Char} {l : List Char} :
    ∀ c ∈ (splitTail ch l).1, c ∈ l := by
  intro c hc
  unfold splitTail at hc
  rcases hb : breakAt ch l with ⟨b, ro⟩
  rw [hb] at hc
  have hfst : b = (breakAt ch l).1 := by rw [hb]
  rcases ro with _ | r <;> simp only at hc <;> rw [hfst] at hc <;>
    exact breakAt_fst_subset c hc

theorem splitTail_snd_subset {ch : Char} {l : List Char} :
    ∀ c ∈ (splitTail ch l).2, c ∈ l := by
  intro c hc
  unfold splitTail at hc
  rcases hb : breakAt ch l with ⟨b, ro⟩
  rw [hb] at hc
  rcases ro with _ | r
  · simp at hc
  · simp only at hc
    have hsnd : (breakAt ch l).2 = some r := by rw [hb]
    rw [breakAt_recover_some hsnd]
    exact List.mem_append_right _ (List.mem_cons_of_mem _ hc)

theorem splitTail_fst_head (ch : Char) (l : List Char) :
    (splitTail ch l).1 = [] ∨ (splitTail ch l).1.headD ' ' = l.headD ' ' := by
  unfold splitTail
  rcases hb : breakAt ch l with ⟨b, ro⟩
  have hfst : b = (breakAt ch l).1 := by rw [hb]
  rcases @breakAt_fst_head ch l with h | h
  · rcases ro with _ | r <;> simp only <;> rw [hfst] <;> exact Or.inl h
  · rcases ro with _ | r <;> simp only <;> rw [hfst] <;> exact Or.inr h

theorem head_append_of_ne_nil {l₁ l₂ : List Char} (h : l₁ ≠ []) :
    (l₁ ++ l₂).headD ' ' = l₁.headD ' ' := by
  match l₁ with
  | [] => exact absurd rfl h
  | c :: cs => simp

theorem scheme_chars_not_colon {c₀ : Char} {s' : List Char}
    (h1 : isAsciiAlpha c₀ = true) (h2 : s'.all isSchemeChar = true) :
    ':' ∉ c₀ :: s' := by
  intro hm
  rcases List.mem_cons.mp hm with he | hm
  · have := isAsciiAlpha_toNat (he ▸ h1)
    have hc : (':' : Char).toNat = 58 := rfl
    omega
  · have := schemeChar_clean ((List.all_eq_true.mp h2) _ hm)
    have hc : (':' : Char).toNat = 58 := rfl
    omega

theorem splitScheme_valid {c₀ : Char} {s' : List Char} (r : List Char)
    (h1 : isAsciiAlpha c₀ = true) (h2 : s'.all isSchemeChar = true)
    (hl : (c₀ :: s').map lowerChar = c₀ :: s') :
    splitScheme ((c₀ :: s') ++ ':' :: r) = (c₀ :: s', r) := by
  unfold splitScheme
  rw [breakAt_append (scheme_chars_not_colon h1 h2)]
  show (if isAsciiAlpha c₀ && s'.all isSchemeChar then ((c₀ :: s').map lowerChar, r)
    else ([], (c₀ :: s') ++ ':' :: r)) = (c₀ :: s', r)
  rw [if_pos (by rw [h1, h2]; rfl), hl]

/-- What `splitScheme` guarantees about the scheme it returns. -/
theorem splitScheme_spec (l : List Char) :
    (splitScheme l).1 = [] ∨
      ((splitScheme l).1 ≠ [] ∧ isAsciiAlpha ((splitScheme l).1.headD ' ') = true ∧
        (∀ c ∈ (splitScheme l).1.tail, isSchemeChar c = true) ∧
        (splitScheme l).1.map lowerChar = (splitScheme l).1) := by
  unfold splitScheme
  rcases hb : breakAt ':' l with ⟨b, ro⟩
  rcases ro with _ | rest
  · rcases b with _ | ⟨c, cs⟩ <;> simp
  · rcases b with _ | ⟨c, cs⟩
    · simp
    · simp only
      by_cases hcond : isAsciiAlpha c && cs.all isSchemeChar
      · rw [if_pos hcond]
        simp only [Bool.and_eq_true] at hcond
        right
        refine ⟨by simp, ?_, ?_, ?_⟩
        · simp only [List.map_cons, List.headD_cons]
          exact isAsciiAlpha_lowerChar hcond.1
        · simp only [List.map_cons, List.tail_cons]
          intro x hx
          rcases List.mem_map.mp hx with ⟨y, hy, hxy⟩
          rw [← hxy]
          exact isSchemeChar_lowerChar ((List.all_eq_true.mp hcond.2) _ hy)
        · simp only [List.map_cons, List.map_map]
          congr 1
          · exact lowerChar_idem c
          · rw [show lowerChar ∘ lowerChar = lowerChar from funext lowerChar_idem]
      · rw [if_neg hcond]
        simp

theorem head?_eq_headD {l : List Char} (h : l ≠ []) : l.head? = some (l.headD ' ') := by
  cases l with
  | nil => exact absurd rfl h
  | cons c cs => rfl

theorem headD_of_head? {l : List Char} {c : Char} (h : l.head? = some c) : l.headD ' ' = c := by
  cases l with
  | nil => simp at h
  | cons a as =>
    simp only [List.head?_cons, Option.some.injEq] at h
    simpa using h

/-- `urlsplit` written out as a tuple of its stages. -/
theorem urlsplit_eq (l0 : List Char) :
    urlsplit l0 = ⟨(splitScheme (urlsplitBase l0)).1,
      (urlsplitNetlocRest (splitScheme (urlsplitBase l0)).2).1,
      (splitTail '?' (splitTail '#' (urlsplitNetlocRest (splitScheme (urlsplitBase l0)).2).2).1).1,
      (splitTail '?' (splitTail '#' (urlsplitNetlocRest (splitScheme (urlsplitBase l0)).2).2).1).2,
      (splitTail '#' (urlsplitNetlocRest (splitScheme (urlsplitBase l0)).2).2).2⟩ := rfl

/-- On a string with no leading control characters and no unsafe characters,
the pre-processing of `urlsplit` is the identity. -/
theorem urlsplitBase_clean {l : List Char} (hh : 32 < (l.headD ' ').toNat)
    (hc : ∀ c ∈ l, isUnsafeUrlChar c = false) : urlsplitBase l = l := by
  unfold urlsplitBase
  have hd : l.dropWhile isC0ControlOrSpace = l := by
    rcases l with _ | ⟨c, cs⟩
    · rfl
    · rw [List.dropWhile_cons, if_neg]
      simp only [List.headD_cons] at hh
      simp only [isC0ControlOrSpace, decide_eq_true_eq]
      omega
  rw [hd]
  unfold removeUnsafe
  rw [List.filter_eq_self.mpr]
  intro a ha
  rw [hc a ha]
  rfl

/-- Splitting a clean URL that starts with a valid scheme recovers the scheme
and the rest. -/
theorem urlsplit_scheme_form (c₀ : Char) (s' r : List Char)
    (h1 : isAsciiAlpha c₀ = true) (h2 : s'.all isSchemeChar = true)
    (hl : (c₀ :: s').map lowerChar = c₀ :: s')
    (hr_clean : ∀ c ∈ r, isUnsafeUrlChar c = false) :
    urlsplit ((c₀ :: s') ++ ':' :: r) =
      ⟨c₀ :: s', (urlsplitNetlocRest r).1,
        (splitTail '?' (splitTail '#' (urlsplitNetlocRest r).2).1).1,
        (splitTail '?' (splitTail '#' (urlsplitNetlocRest r).2).1).2,
        (splitTail '#' (urlsplitNetlocRest r).2).2⟩ := by
  rw [urlsplit_eq]
  have hbase : urlsplitBase ((c₀ :: s') ++ ':' :: r) = (c₀ :: s') ++ ':' :: r := by
    apply urlsplitBase_clean
    · rw [List.cons_append, List.headD_cons]
      rcases isAsciiAlpha_toNat h1 with h | h <;> omega
    · intro c hc
      rcases List.mem_append.mp hc with hm | hm
      · rcases List.mem_cons.mp hm with he | hm
        · subst he
          exact clean_of_gt_32 (by rcases isAsciiAlpha_toNat h1 with h | h <;> omega)
        · exact (schemeChar_clean ((List.all_eq_true.mp h2) _ hm)).2.2
      · rcases List.mem_cons.mp hm with he | hm
        · subst he; exact clean_of_gt_32 (by decide)
        · exact hr_clean c hm
  rw [hbase, splitScheme_valid r h1 h2 hl]

theorem take_two_append {pa : List Char} (hne : pa ≠ []) (h2 : pa.take 2 ≠ ['/', '/'])
    {qp : List Char} (hqp : qp = [] ∨ qp.headD ' ' = '?') :
    (pa ++ qp).take 2 ≠ ['/', '/'] := by
  rcases pa with _ | ⟨a, pa'⟩
  · exact absurd rfl hne
  rcases pa' with _ | ⟨b, pa''⟩
  · rcases hqp with hqp | hqp
    · subst hqp; rw [List.append_nil]; exact h2
    · rcases qp with _ | ⟨x, xs⟩
      · rw [List.append_nil]; exact h2
      · simp only [List.headD_cons] at hqp
        subst hqp
        intro he
        have he2 : ([a, '?'] : List Char) = ['/', '/'] := he
        injection he2 with _ h3
        injection h3 with h4 _
        exact absurd h4 (by decide)
  · intro he
    have he2 : ([a, b] : List Char) = ['/', '/'] := he
    apply h2
    have h3 : (a :: b :: pa'').take 2 = [a, b] := rfl
    rw [h3, he2]

theorem qpart_head (q : List Char) :
    (if q ≠ [] then '?' :: q else []) = [] ∨
      (if q ≠ [] then '?' :: q else []).headD ' ' = '?' := by
  by_cases hq : q = []
  · left; rw [if_neg (fun h => h hq)]
  · right; rw [if_pos hq]; rfl

theorem qpart_clean {q : List Char} (hq_clean : ∀ c ∈ q, isUnsafeUrlChar c = false) :
    ∀ c ∈ (if q ≠ [] then '?' :: q else []), isUnsafeUrlChar c = false := by
  intro c hc
  split at hc
  · rcases List.mem_cons.mp hc with he | hm
    · subst he; exact clean_of_gt_32 (by decide)
    · exact hq_clean c hm
  · simp at hc

/-- The fragment split then the query split of `path ++ "?query"`. -/
theorem splitTails_path_query (pa q : List Char) (hp_q : '?' ∉ pa) (hp_h : '#' ∉ pa)
    (hq_h : '#' ∉ q) :
    splitTail '#' (pa ++ (if q ≠ [] then '?' :: q else [])) =
      (pa ++ (if q ≠ [] then '?' :: q else []), []) ∧
    splitTail '?' (pa ++ (if q ≠ [] then '?' :: q else [])) = (pa, q) := by
  by_cases hq : q = []
  · subst hq
    rw [if_neg (fun h => h rfl), List.append_nil]
    exact ⟨splitTail_not_mem hp_h, splitTail_not_mem hp_q⟩
  · rw [if_pos hq]
    constructor
    · apply splitTail_not_mem
      intro hm
      rcases List.mem_append.mp hm with hm | hm
      · exact hp_h hm
      · rcases List.mem_cons.mp hm with he | hm
        · exact absurd he (by decide)
        · exact hq_h hm
    · exact splitTail_append hp_q q

/-- `urlunsplit` on fragment-free parts, written out as two stages. -/
theorem urlunsplit_parts (s n pa q : List Char) :
    urlunsplit ⟨s, n, pa, q, []⟩ =
      (if s ≠ [] then s ++ ':' :: urlunsplitMarked ⟨s, n, pa, q, []⟩
        else urlunsplitMarked ⟨s, n, pa, q, []⟩) ++ (if q ≠ [] then '?' :: q else []) := by
  by_cases hq : q = []
  · subst hq
    rw [if_neg (show ¬(([] : List Char) ≠ []) from fun h => h rfl), List.append_nil]
    rfl
  · show (if q ≠ [] then urlunsplitScheme ⟨s, n, pa, q, []⟩ ++ '?' :: q
      else urlunsplitScheme ⟨s, n, pa, q, []⟩) = _
    rw [if_pos hq, if_pos hq]
    rfl

/-- Re-splitting a clean URL of the form `scheme://netloc + path + query` when
the path starts with a slash. -/
theorem urlsplit_marker_full (c₀ : Char) (s' n pb q : List Char)
    (h1 : isAsciiAlpha c₀ = true) (h2 : s'.all isSchemeChar = true)
    (hl : (c₀ :: s').map lowerChar = c₀ :: s')
    (hn_chars : ∀ c ∈ n, netlocChar c = true)
    (hn_clean : ∀ c ∈ n, isUnsafeUrlChar c = false)
    (hpb_ne : pb ≠ []) (hpb_head : pb.headD ' ' = '/')
    (hpb_q : '?' ∉ pb) (hpb_h : '#' ∉ pb)
    (hpb_clean : ∀ c ∈ pb, isUnsafeUrlChar c = false)
    (hq_h : '#' ∉ q) (hq_clean : ∀ c ∈ q, isUnsafeUrlChar c = false) :
    urlsplit ((c₀ :: s') ++ ':' :: '/' :: '/' ::
        ((n ++ pb) ++ (if q ≠ [] then '?' :: q else []))) = ⟨c₀ :: s', n, pb, q, []⟩ := by
  have hr_clean : ∀ c ∈ ('/' :: '/' :: ((n ++ pb) ++ (if q ≠ [] then '?' :: q else []))),
      isUnsafeUrlChar c = false := by
    intro c hc
    rcases List.mem_cons.mp hc with he | hc
    · subst he; exact clean_of_gt_32 (by decide)
    rcases List.mem_cons.mp hc with he | hc
    · subst he; exact clean_of_gt_32 (by decide)
    rcases List.mem_append.mp hc with hc | hc
    · rcases List.mem_append.mp hc with hc | hc
      · exact hn_clean c hc
      · exact hpb_clean c hc
    · exact qpart_clean hq_clean c hc
  rw [urlsplit_scheme_form c₀ s' _ h1 h2 hl hr_clean]
  have hne2 : pb ++ (if q ≠ [] then '?' :: q else []) ≠ [] := by
    intro h
    exact hpb_ne (List.append_eq_nil.mp h).1
  have hh : netlocChar ((pb ++ (if q ≠ [] then '?' :: q else [])).headD ' ') = false := by
    rw [head_append_of_ne_nil hpb_ne, hpb_head]
    rfl
  have hkey := takeWhile_append_head_false hn_chars hne2 hh
  have hnr : urlsplitNetlocRest ('/' :: '/' ::
      ((n ++ pb) ++ (if q ≠ [] then '?' :: q else []))) =
      (n, pb ++ (if q ≠ [] then '?' :: q else [])) := by
    unfold urlsplitNetlocRest
    rw [if_pos (show List.take 2 ('/' :: '/' ::
      ((n ++ pb) ++ (if q ≠ [] then '?' :: q else []))) = ['/', '/'] from rfl)]
    show (((n ++ pb) ++ (if q ≠ [] then '?' :: q else [])).takeWhile netlocChar,
      ((n ++ pb) ++ (if q ≠ [] then '?' :: q else [])).dropWhile netlocChar) = _
    rw [List.append_assoc, hkey.1, hkey.2]
  rw [hnr]
  have hts := splitTails_path_query pb q hpb_q hpb_h hq_h
  show (⟨c₀ :: s', n,
      (splitTail '?' (splitTail '#' (pb ++ (if q ≠ [] then '?' :: q else []))).1).1,
      (splitTail '?' (splitTail '#' (pb ++ (if q ≠ [] then '?' :: q else []))).1).2,
      (splitTail '#' (pb ++ (if q ≠ [] then '?' :: q else []))).2⟩ : SplitResult) =
    ⟨c₀ :: s', n, pb, q, []⟩
  rw [hts.1]
  show (⟨c₀ :: s', n, (splitTail '?' (pb ++ (if q ≠ [] then '?' :: q else []))).1,
      (splitTail '?' (pb ++ (if q ≠ [] then '?' :: q else []))).2, ([] : List Char)⟩ :
      SplitResult) = ⟨c₀ :: s', n, pb, q, []⟩
  rw [hts.2]

/-- Re-splitting a clean URL of the form `scheme: + path + query` when the
path does not start with `//`. -/
theorem urlsplit_nomarker_full (c₀ : Char) (s' pa q : List Char)
    (h1 : isAsciiAlpha c₀ = true) (h2 : s'.all isSchemeChar = true)
    (hl : (c₀ :: s').map lowerChar = c₀ :: s')
    (hp_ne : pa ≠ []) (hp2 : pa.take 2 ≠ ['/', '/'])
    (hp_q : '?' ∉ pa) (hp_h : '#' ∉ pa)
    (hp_clean : ∀ c ∈ pa, isUnsafeUrlChar c = false)
    (hq_h : '#' ∉ q) (hq_clean : ∀ c ∈ q, isUnsafeUrlChar c = false) :
    urlsplit ((c₀ :: s') ++ ':' :: (pa ++ (if q ≠ [] then '?' :: q else []))) =
      ⟨c₀ :: s', [], pa, q, []⟩ := by
  have hr_clean : ∀ c ∈ pa ++ (if q ≠ [] then '?' :: q else []),
      isUnsafeUrlChar c = false := by
    intro c hc
    rcases List.mem_append.mp hc with hc | hc
    · exact hp_clean c hc
    · exact qpart_clean hq_clean c hc
  rw [urlsplit_scheme_form c₀ s' _ h1 h2 hl hr_clean]
  have hnr : urlsplitNetlocRest (pa ++ (if q ≠ [] then '?' :: q else [])) =
      ([], pa ++ (if q ≠ [] then '?' :: q else [])) := by
    unfold urlsplitNetlocRest
    rw [if_neg (take_two_append hp_ne hp2 (qpart_head q))]
  rw [hnr]
  have hts := splitTails_path_query pa q hp_q hp_h hq_h
  show (⟨c₀ :: s', [],
      (splitTail '?' (splitTail '#' (pa ++ (if q ≠ [] then '?' :: q else []))).1).1,
      (splitTail '?' (splitTail '#' (pa ++ (if q ≠ [] then '?' :: q else []))).1).2,
      (splitTail '#' (pa ++ (if q ≠ [] then '?' :: q else []))).2⟩ : SplitResult) =
    ⟨c₀ :: s', [], pa, q, []⟩
  rw [hts.1]
  show (⟨c₀ :: s', [], (splitTail '?' (pa ++ (if q ≠ [] then '?' :: q else []))).1,
      (splitTail '?' (pa ++ (if q ≠ [] then '?' :: q else []))).2, ([] : List Char)⟩ :
      SplitResult) = ⟨c₀ :: s', [], pa, q, []⟩
  rw [hts.2]

/-- Round trip: on well-formed fragment-free parts whose path avoids the
`//`-collapse corner (`netloc = []` with a path starting in `//`),
`urlsplit ∘ urlunsplit` returns the parts unchanged except for the
slash-insertion of `uses_netloc` schemes. -/
theorem urlsplit_urlunsplit (c₀ : Char) (s' n pa q : List Char)
    (hs_head : isAsciiAlpha c₀ = true)
    (hs_tail : s'.all isSchemeChar = true)
    (hs_lower : (c₀ :: s').map lowerChar = c₀ :: s')
    (hn_chars : ∀ c ∈ n, netlocChar c = true)
    (hn_clean : ∀ c ∈ n, isUnsafeUrlChar c = false)
    (hp_ne : pa ≠ [])
    (hp_q : '?' ∉ pa) (hp_h : '#' ∉ pa)
    (hp_clean : ∀ c ∈ pa, isUnsafeUrlChar c = false)
    (hp_slash : n ≠ [] → pa.headD ' ' = '/')
    (hq_h : '#' ∉ q)
    (hq_clean : ∀ c ∈ q, isUnsafeUrlChar c = false)
    (hne : n = [] → pa.take 2 ≠ ['/', '/']) :
    urlsplit (urlunsplit ⟨c₀ :: s', n, pa, q, []⟩) =
      insertSlash ⟨c₀ :: s', n, pa, q, []⟩ := by
  by_cases hn0 : n = []
  · subst hn0
    have hp2 := hne rfl
    by_cases hscheme : (c₀ :: s') ∈ usesNetloc
    · by_cases hhead : pa.head? = some '/'
      · -- empty netloc, uses_netloc scheme, absolute path: marker added, nothing changes
        have hmark : urlunsplitMarked ⟨c₀ :: s', [], pa, q, []⟩ =
            '/' :: '/' :: (([] : List Char) ++ pa) := by
          show (if ([] : List Char) ≠ [] ∨
              ((c₀ :: s') ≠ [] ∧ (c₀ :: s') ∈ usesNetloc ∧ pa.take 2 ≠ ['/', '/']) then
              '/' :: '/' :: (([] : List Char) ++
                (if pa ≠ [] ∧ pa.head? ≠ some '/' then '/' :: pa else pa))
            else pa) = '/' :: '/' :: (([] : List Char) ++ pa)
          rw [if_pos (Or.inr ⟨List.cons_ne_nil c₀ s', hscheme, hp2⟩)]
          rw [if_neg (fun hcon => hcon.2 hhead)]
        have hout : urlunsplit ⟨c₀ :: s', [], pa, q, []⟩ =
            (c₀ :: s') ++ ':' :: '/' :: '/' ::
              ((([] : List Char) ++ pa) ++ (if q ≠ [] then '?' :: q else [])) := by
          rw [urlunsplit_parts, hmark, if_pos (List.cons_ne_nil c₀ s')]
          simp
        rw [hout, urlsplit_marker_full c₀ s' [] pa q hs_head hs_tail hs_lower
          (by simp) (by simp) hp_ne (headD_of_head? hhead) hp_q hp_h hp_clean hq_h hq_clean]
        unfold insertSlash
        rw [if_neg (fun hcon => hcon.2.2 hhead)]
      · -- empty netloc, uses_netloc scheme, relative path: a slash is inserted
        have hmark : urlunsplitMarked ⟨c₀ :: s', [], pa, q, []⟩ =
            '/' :: '/' :: (([] : List Char) ++ ('/' :: pa)) := by
          show (if ([] : List Char) ≠ [] ∨
              ((c₀ :: s') ≠ [] ∧ (c₀ :: s') ∈ usesNetloc ∧ pa.take 2 ≠ ['/', '/']) then
              '/' :: '/' :: (([] : List Char) ++
                (if pa ≠ [] ∧ pa.head? ≠ some '/' then '/' :: pa else pa))
            else pa) = '/' :: '/' :: (([] : List Char) ++ ('/' :: pa))
          rw [if_pos (Or.inr ⟨List.cons_ne_nil c₀ s', hscheme, hp2⟩)]
          rw [if_pos ⟨hp_ne, hhead⟩]
        have hout : urlunsplit ⟨c₀ :: s', [], pa, q, []⟩ =
            (c₀ :: s') ++ ':' :: '/' :: '/' ::
              ((([] : List Char) ++ ('/' :: pa)) ++ (if q ≠ [] then '?' :: q else [])) := by
          rw [urlunsplit_parts, hmark, if_pos (List.cons_ne_nil c₀ s')]
          simp
        have hsl_q : '?' ∉ '/' :: pa := by
          intro hm
          rcases List.mem_cons.mp hm with he | hm
          · exact absurd he (by decide)
          · exact hp_q hm
        have hsl_h : '#' ∉ '/' :: pa := by
          intro hm
          rcases List.mem_cons.mp hm with he | hm
          · exact absurd he (by decide)
          · exact hp_h hm
        have hsl_clean : ∀ c ∈ '/' :: pa, isUnsafeUrlChar c = false := by
          intro c hc
          rcases List.mem_cons.mp hc with he | hc
          · subst he; exact clean_of_gt_32 (by decide)
          · exact hp_clean c hc
        rw [hout, urlsplit_marker_full c₀ s' [] ('/' :: pa) q hs_head hs_tail hs_lower
          (by simp) (by simp) (List.cons_ne_nil '/' pa) rfl hsl_q hsl_h hsl_clean hq_h hq_clean]
        unfold insertSlash
        rw [if_pos ⟨rfl, hscheme, hhead⟩]
    · -- empty netloc, scheme not in uses_netloc: no marker, nothing changes
      have hmark : urlunsplitMarked ⟨c₀ :: s', [], pa, q, []⟩ = pa := by
        show (if ([] : List Char) ≠ [] ∨
            ((c₀ :: s') ≠ [] ∧ (c₀ :: s') ∈ usesNetloc ∧ pa.take 2 ≠ ['/', '/']) then
            '/' :: '/' :: (([] : List Char) ++
              (if pa ≠ [] ∧ pa.head? ≠ some '/' then '/' :: pa else pa))
          else pa) = pa
        rw [if_neg]
        rintro (hcon | hcon)
        · exact hcon rfl
        · exact hscheme hcon.2.1
      have hout : urlunsplit ⟨c₀ :: s', [], pa, q, []⟩ =
          (c₀ :: s') ++ ':' :: (pa ++ (if q ≠ [] then '?' :: q else [])) := by
        rw [urlunsplit_parts, hmark, if_pos (List.cons_ne_nil c₀ s')]
        simp
      rw [hout, urlsplit_nomarker_full c₀ s' pa q hs_head hs_tail hs_lower
        hp_ne hp2 hp_q hp_h hp_clean hq_h hq_clean]
      unfold insertSlash
      rw [if_neg (fun hcon => hscheme hcon.2.1)]
  · -- nonempty netloc: marker added, nothing changes
    have hpahead := hp_slash hn0
    have hhead : pa.head? = some '/' := by rw [head?_eq_headD hp_ne, hpahead]
    have hmark : urlunsplitMarked ⟨c₀ :: s', n, pa, q, []⟩ = '/' :: '/' :: (n ++ pa) := by
      show (if n ≠ [] ∨
          ((c₀ :: s') ≠ [] ∧ (c₀ :: s') ∈ usesNetloc ∧ pa.take 2 ≠ ['/', '/']) then
          '/' :: '/' :: (n ++ (if pa ≠ [] ∧ pa.head? ≠ some '/' then '/' :: pa else pa))
        else pa) = '/' :: '/' :: (n ++ pa)
      rw [if_pos (Or.inl hn0)]
      rw [if_neg (fun hcon => hcon.2 hhead)]
    have hout : urlunsplit ⟨c₀ :: s', n, pa, q, []⟩ =
        (c₀ :: s') ++ ':' :: '/' :: '/' ::
          ((n ++ pa) ++ (if q ≠ [] then '?' :: q else [])) := by
      rw [urlunsplit_parts, hmark, if_pos (List.cons_ne_nil c₀ s')]
      simp
    rw [hout, urlsplit_marker_full c₀ s' n pa q hs_head hs_tail hs_lower
      hn_chars hn_clean hp_ne hpahead hp_q hp_h hp_clean hq_h hq_clean]
    unfold insertSlash
    rw [if_neg (fun hcon => hn0 hcon.1)]

theorem headD_mem {l : List Char} (h : l ≠ []) : l.headD ' ' ∈ l := by
  cases l with
  | nil => exact absurd rfl h
  | cons a as => simp

/-- The first normalizer stage of `_sanitize_uri` never changes the parts:
the only registered normalizer is the no-op one. -/
theorem normalizer_elim (ns : List Char) (r : SplitResult) :
    (get_uri_normalizer ns).elim r (fun f => f r) = r := by
  unfold get_uri_normalizer
  by_cases h : ns = "file".data
  · rw [if_pos h]; rfl
  · rw [if_neg h]; rfl

/-- Every character surviving the pre-processing of `urlsplit` is safe. -/
theorem urlsplitBase_members {l : List Char} :
    ∀ c ∈ urlsplitBase l, isUnsafeUrlChar c = false := by
  intro c hc
  unfold urlsplitBase removeUnsafe at hc
  rw [List.mem_filter] at hc
  have h2 := hc.2
  rw [Bool.not_eq_true'] at h2
  exact h2

theorem splitScheme_snd_subset {l : List Char} : ∀ c ∈ (splitScheme l).2, c ∈ l := by
  intro c hc
  rw [splitScheme.eq_def] at hc
  split at hc
  · next a as rest heq =>
    split at hc
    · have hc2 : c ∈ rest := hc
      have hrec := @breakAt_recover_some ':' l rest (by rw [heq])
      rw [hrec]
      exact List.mem_append_right _ (List.mem_cons_of_mem _ hc2)
    · exact hc
  · exact hc

theorem urlsplitNetlocRest_snd_subset {r : List Char} :
    ∀ c ∈ (urlsplitNetlocRest r).2, c ∈ r := by
  intro c hc
  unfold urlsplitNetlocRest at hc
  split at hc
  · have hc2 : c ∈ (r.drop 2).dropWhile netlocChar := hc
    exact List.drop_subset 2 r ((List.dropWhile_sublist netlocChar).subset hc2)
  · exact hc

theorem urlsplitNetlocRest_fst_subset {r : List Char} :
    ∀ c ∈ (urlsplitNetlocRest r).1, c ∈ r := by
  intro c hc
  unfold urlsplitNetlocRest at hc
  split at hc
  · have hc2 : c ∈ (r.drop 2).takeWhile netlocChar := hc
    exact List.drop_subset 2 r ((List.takeWhile_sublist netlocChar).subset hc2)
  · simp at hc

theorem urlsplitNetlocRest_fst_chars {r : List Char} :
    ∀ c ∈ (urlsplitNetlocRest r).1, netlocChar c = true := by
  intro c hc
  unfold urlsplitNetlocRest at hc
  split at hc
  · exact List.mem_takeWhile_imp hc
  · simp at hc

/-- When `urlsplit` recognised a netloc, the rest after it is empty or starts
with one of the netloc-ending characters. -/
theorem urlsplitNetlocRest_snd_head {r : List Char} (hne : (urlsplitNetlocRest r).1 ≠ []) :
    (urlsplitNetlocRest r).2 = [] ∨
      netlocChar ((urlsplitNetlocRest r).2.headD ' ') = false := by
  unfold urlsplitNetlocRest at hne ⊢
  by_cases hc : r.take 2 = ['/', '/']
  · rw [if_pos hc]
    by_cases hd : (r.drop 2).dropWhile netlocChar = []
    · exact Or.inl hd
    · exact Or.inr (dropWhile_head_false hd)
  · rw [if_neg hc] at hne
    exact absurd rfl hne

theorem insertSlash_scheme (p : SplitResult) : (insertSlash p).scheme = p.scheme := by
  unfold insertSlash
  split <;> rfl

theorem insertSlash_netloc (p : SplitResult) : (insertSlash p).netloc = p.netloc := by
  unfold insertSlash
  split <;> rfl

theorem insertSlash_query (p : SplitResult) : (insertSlash p).query = p.query := by
  unfold insertSlash
  split <;> rfl

/-- `urlunsplit` is blind to the slash insertion: re-emitting the parts after
the round trip produces the same string. -/
theorem urlunsplit_insertSlash (s n pa q : List Char) (hs_ne : s ≠ []) (hp_ne : pa ≠ []) :
    urlunsplit (insertSlash ⟨s, n, pa, q, []⟩) = urlunsplit ⟨s, n, pa, q, []⟩ := by
  by_cases h : n = [] ∧ s ∈ usesNetloc ∧ pa.head? ≠ some '/'
  · obtain ⟨hn, hu, hh⟩ := h
    subst hn
    have hIns : insertSlash ⟨s, [], pa, q, []⟩ = ⟨s, [], '/' :: pa, q, []⟩ := by
      unfold insertSlash
      rw [if_pos ⟨rfl, hu, hh⟩]
    have htake : pa.take 2 ≠ ['/', '/'] := by
      rcases pa with _ | ⟨a, pr⟩
      · exact absurd rfl hp_ne
      · intro he
        have he2 : a :: pr.take 1 = ['/', '/'] := he
        injection he2 with h1 _
        exact hh (by rw [List.head?_cons, h1])
    have htake2 : ('/' :: pa).take 2 ≠ ['/', '/'] := by
      rcases pa with _ | ⟨a, pr⟩
      · exact absurd rfl hp_ne
      · intro he
        have he2 : (['/', a] : List Char) = ['/', '/'] := he
        injection he2 with _ h2
        injection h2 with h2 _
        exact hh (by rw [List.head?_cons, h2])
    have hm1 : urlunsplitMarked ⟨s, [], pa, q, []⟩ =
        '/' :: '/' :: (([] : List Char) ++ ('/' :: pa)) := by
      show (if ([] : List Char) ≠ [] ∨ (s ≠ [] ∧ s ∈ usesNetloc ∧ pa.take 2 ≠ ['/', '/']) then
          '/' :: '/' :: (([] : List Char) ++
            (if pa ≠ [] ∧ pa.head? ≠ some '/' then '/' :: pa else pa))
        else pa) = '/' :: '/' :: (([] : List Char) ++ ('/' :: pa))
      rw [if_pos (Or.inr ⟨hs_ne, hu, htake⟩), if_pos ⟨hp_ne, hh⟩]
    have hm2 : urlunsplitMarked ⟨s, [], '/' :: pa, q, []⟩ =
        '/' :: '/' :: (([] : List Char) ++ ('/' :: pa)) := by
      show (if ([] : List Char) ≠ [] ∨
          (s ≠ [] ∧ s ∈ usesNetloc ∧ ('/' :: pa).take 2 ≠ ['/', '/']) then
          '/' :: '/' :: (([] : List Char) ++
            (if ('/' :: pa) ≠ [] ∧ ('/' :: pa).head? ≠ some '/' then '/' :: '/' :: pa
              else '/' :: pa))
        else '/' :: pa) = '/' :: '/' :: (([] : List Char) ++ ('/' :: pa))
      rw [if_pos (Or.inr ⟨hs_ne, hu, htake2⟩), if_neg]
      intro hcon
      exact hcon.2 rfl
    rw [hIns, urlunsplit_parts, urlunsplit_parts, hm1, hm2]
  · have hIns : insertSlash ⟨s, n, pa, q, []⟩ = ⟨s, n, pa, q, []⟩ := by
      unfold insertSlash
      rw [if_neg h]
    rw [hIns]

/-- A `urlsplit` failure is `_sanitize_uri`'s failure. -/
theorem sanitizeCore_of_err (uri : List Char) (e : PyExc)
    (h : netlocChecks (urlsplit uri).netloc = .error e) :
    sanitizeCore uri = .error e := by
  have hE : urlsplitE uri = .error e := by
    unfold urlsplitE
    rw [h]
  unfold sanitizeCore
  rw [hE]

/-- `_sanitize_uri` written out branch by branch, on a URL whose netloc passes
the parse-time validation. -/
theorem sanitizeCore_eq (uri : List Char)
    (hchk : netlocChecks (urlsplit uri).netloc = .ok ()) :
    sanitizeCore uri =
      if (urlsplit uri).scheme = [] ∧ (urlsplit uri).netloc = [] then Except.ok uri
      else if get_normalized_scheme uri = [] then Except.ok uri
      else if (get_normalized_scheme uri).take 2 = ['x', '-'] then Except.ok uri
      else if get_normalized_scheme uri = "airflow".data then
        Except.error (PyExc.valueError "Asset scheme \x27airflow\x27 is reserved")
      else Except.ok (urlunsplit
        ((get_uri_normalizer (get_normalized_scheme uri)).elim
          (SplitResult.mk (get_normalized_scheme uri)
            (rpartitionChar '@' (urlsplit uri).netloc).2.2
            (rstripSlashesOrRoot (urlsplit uri).path)
            (if (urlsplit uri).query ≠ [] then canonicalQuery (urlsplit uri).query else [])
            [])
          (fun f => f (SplitResult.mk (get_normalized_scheme uri)
            (rpartitionChar '@' (urlsplit uri).netloc).2.2
            (rstripSlashesOrRoot (urlsplit uri).path)
            (if (urlsplit uri).query ≠ [] then canonicalQuery (urlsplit uri).query else [])
            [])))) := by
  have hE : urlsplitE uri = .ok (urlsplit uri) := by
    unfold urlsplitE
    rw [hchk]
  unfold sanitizeCore
  rw [hE]

/-- Canonical outputs are fixed points of `_sanitize_uri`: applying it to a
URL assembled from already-normalized parts returns the URL unchanged. -/
theorem sanitizeCore_fixed (c₀ : Char) (s' nn np nq : List Char)
    (hs_head : isAsciiAlpha c₀ = true)
    (hs_tail : s'.all isSchemeChar = true)
    (hs_lower : (c₀ :: s').map lowerChar = c₀ :: s')
    (hx : (c₀ :: s').take 2 ≠ ['x', '-'])
    (hair : c₀ :: s' ≠ "airflow".data)
    (hn_chars : ∀ c ∈ nn, netlocChar c = true)
    (hn_clean : ∀ c ∈ nn, isUnsafeUrlChar c = false)
    (hn_at : '@' ∉ nn)
    (hn_nb : '[' ∉ nn ∧ ']' ∉ nn)
    (hp_ne : np ≠ [])
    (hp_q : '?' ∉ np) (hp_h : '#' ∉ np)
    (hp_clean : ∀ c ∈ np, isUnsafeUrlChar c = false)
    (hp_slash : nn ≠ [] → np.headD ' ' = '/')
    (hp_st : rstripSlashesOrRoot np = np)
    (hq_h : '#' ∉ nq)
    (hq_clean : ∀ c ∈ nq, isUnsafeUrlChar c = false)
    (hq_idem : nq ≠ [] → canonicalQuery nq = nq)
    (hne : nn = [] → np.take 2 ≠ ['/', '/']) :
    sanitizeCore (urlunsplit ⟨c₀ :: s', nn, np, nq, []⟩) =
      .ok (urlunsplit ⟨c₀ :: s', nn, np, nq, []⟩) := by
  have hsplit := urlsplit_urlunsplit c₀ s' nn np nq hs_head hs_tail hs_lower hn_chars
    hn_clean hp_ne hp_q hp_h hp_clean hp_slash hq_h hq_clean hne
  have hns : get_normalized_scheme (urlunsplit ⟨c₀ :: s', nn, np, nq, []⟩) = c₀ :: s' := by
    unfold get_normalized_scheme
    rw [hsplit, insertSlash_scheme]
    exact hs_lower
  have hnn : (rpartitionChar '@'
      (urlsplit (urlunsplit ⟨c₀ :: s', nn, np, nq, []⟩)).netloc).2.2 = nn := by
    rw [hsplit, insertSlash_netloc]
    show (rpartitionChar '@' nn).2.2 = nn
    rw [rpartitionChar_of_not_mem hn_at]
  have hq2 : (if (urlsplit (urlunsplit ⟨c₀ :: s', nn, np, nq, []⟩)).query ≠ [] then
      canonicalQuery (urlsplit (urlunsplit ⟨c₀ :: s', nn, np, nq, []⟩)).query else []) = nq := by
    rw [hsplit, insertSlash_query]
    show (if nq ≠ [] then canonicalQuery nq else []) = nq
    by_cases hq : nq = []
    · rw [if_neg (fun h => h hq)]
      exact hq.symm
    · rw [if_pos hq]
      exact hq_idem hq
  have hpath : rstripSlashesOrRoot (urlsplit (urlunsplit ⟨c₀ :: s', nn, np, nq, []⟩)).path =
      (insertSlash ⟨c₀ :: s', nn, np, nq, []⟩).path := by
    rw [hsplit]
    unfold insertSlash
    split
    · next hcond =>
      show rstripSlashesOrRoot ('/' :: np) = '/' :: np
      apply rstrip_cons_slash hp_st _ hp_ne
      intro he
      exact hcond.2.2 (by rw [head?_eq_headD hp_ne, he])
    · exact hp_st
  have hchk2 : netlocChecks
      (urlsplit (urlunsplit ⟨c₀ :: s', nn, np, nq, []⟩)).netloc = .ok () := by
    rw [hsplit, insertSlash_netloc]
    show netlocChecks nn = .ok ()
    unfold netlocChecks
    rw [if_neg (show ¬(('[' ∈ nn ∧ ']' ∉ nn) ∨ (']' ∈ nn ∧ '[' ∉ nn)) from by
      rintro (⟨h1, _⟩ | ⟨h1, _⟩)
      · exact hn_nb.1 h1
      · exact hn_nb.2 h1)]
    rw [if_neg (fun hcon => hn_nb.1 hcon.1)]
  rw [sanitizeCore_eq _ hchk2]
  rw [if_neg (fun hcon => List.cons_ne_nil c₀ s'
    (by have h1 := hcon.1; rw [hsplit, insertSlash_scheme] at h1; exact h1))]
  rw [if_neg (fun hcon => List.cons_ne_nil c₀ s' (by rw [hns] at hcon; exact hcon))]
  rw [if_neg (fun hcon => hx (by rw [hns] at hcon; exact hcon))]
  rw [if_neg (fun hcon => hair (by rw [hns] at hcon; exact hcon))]
  rw [normalizer_elim, hns, hnn, hq2, hpath]
  have hrec : SplitResult.mk (c₀ :: s') nn (insertSlash ⟨c₀ :: s', nn, np, nq, []⟩).path nq [] =
      insertSlash ⟨c₀ :: s', nn, np, nq, []⟩ := by
    unfold insertSlash
    split <;> rfl
  rw [hrec, urlunsplit_insertSlash (c₀ :: s') nn np nq (List.cons_ne_nil c₀ s') hp_ne]

/-- Idempotence of `_sanitize_uri` away from the `//`-collapse corner and the
unmodelled netloc validations: if the first pass succeeded, its auth-stripped
netloc holds no bracket, and the normalized parts do not combine an empty
auth-stripped netloc with a path starting in `//`, then a second pass returns
the output unchanged. -/
theorem sanitizeCore_idem (uri out : List Char)
    (hok : sanitizeCore uri = .ok out)
    (hnb : '[' ∉ (rpartitionChar '@' (urlsplit uri).netloc).2.2 ∧
      ']' ∉ (rpartitionChar '@' (urlsplit uri).netloc).2.2)
    (hcorner : ¬((rpartitionChar '@' (urlsplit uri).netloc).2.2 = [] ∧
      (rstripSlashesOrRoot (urlsplit uri).path).take 2 = ['/', '/'])) :
    sanitizeCore out = .ok out := by
  have horig := hok
  have hchk : netlocChecks (urlsplit uri).netloc = .ok () := by
    rcases hchk0 : netlocChecks (urlsplit uri).netloc with e | v
    · have hodd := sanitizeCore_of_err uri e hchk0
      rw [hodd] at hok
      exact absurd hok (by simp)
    · cases v
      rfl
  rw [sanitizeCore_eq _ hchk] at hok
  split at hok
  · injection hok with h
    subst h
    exact horig
  · next h1 =>
    split at hok
    · injection hok with h
      subst h
      exact horig
    · next h2 =>
      split at hok
      · injection hok with h
        subst h
        exact horig
      · next h3 =>
        split at hok
        · exact absurd hok (by simp)
        · next h4 =>
          rw [normalizer_elim] at hok
          injection hok with hout
          subst hout
          -- scheme shape from `splitScheme`
          have hns_map : get_normalized_scheme uri =
              ((splitScheme (urlsplitBase uri)).1).map lowerChar := rfl
          rcases splitScheme_spec (urlsplitBase uri) with hnil | ⟨hne0, hhead0, htail0, hlower0⟩
          · exact absurd (by rw [hns_map, hnil]; rfl) h2
          obtain ⟨c₀, s', hS⟩ : ∃ c₀ s', (splitScheme (urlsplitBase uri)).1 = c₀ :: s' := by
            rcases hsp : (splitScheme (urlsplitBase uri)).1 with _ | ⟨a, b⟩
            · exact absurd hsp hne0
            · exact ⟨a, b, rfl⟩
          have hns3 : get_normalized_scheme uri = c₀ :: s' := by
            rw [hns_map, hlower0, hS]
          rw [hS] at hhead0 htail0 hlower0
          simp only [List.headD_cons] at hhead0
          simp only [List.tail_cons] at htail0
          -- cleanliness of the parsed components
          have hbase_clean := urlsplitBase_members (l := uri)
          have hnet_sub : ∀ c ∈ (urlsplit uri).netloc, c ∈ urlsplitBase uri := by
            intro c hc
            exact splitScheme_snd_subset c (urlsplitNetlocRest_fst_subset c hc)
          have hnet_chars : ∀ c ∈ (urlsplit uri).netloc, netlocChar c = true :=
            fun c hc => urlsplitNetlocRest_fst_chars c hc
          have hnn_sub : ∀ c ∈ (rpartitionChar '@' (urlsplit uri).netloc).2.2,
              c ∈ (urlsplit uri).netloc := rpartitionChar_last_subset
          have hnn_chars : ∀ c ∈ (rpartitionChar '@' (urlsplit uri).netloc).2.2,
              netlocChar c = true := fun c hc => hnet_chars c (hnn_sub c hc)
          have hnn_clean : ∀ c ∈ (rpartitionChar '@' (urlsplit uri).netloc).2.2,
              isUnsafeUrlChar c = false :=
            fun c hc => hbase_clean c (hnet_sub c (hnn_sub c hc))
          have hnn_at : '@' ∉ (rpartitionChar '@' (urlsplit uri).netloc).2.2 :=
            rpartitionChar_no_at '@' _
          -- parsed path
          have hpath_q : '?' ∉ (urlsplit uri).path := splitTail_fst_not_mem '?' _
          have hpath_h : '#' ∉ (urlsplit uri).path := by
            intro hm
            exact splitTail_fst_not_mem '#' _ (splitTail_fst_subset _ hm)
          have hpath_sub : ∀ c ∈ (urlsplit uri).path, c ∈ urlsplitBase uri := by
            intro c hc
            exact splitScheme_snd_subset c (urlsplitNetlocRest_snd_subset c
              (splitTail_fst_subset c (splitTail_fst_subset c hc)))
          -- normalized path
          have hnp_ne := rstripSlashesOrRoot_ne_nil (urlsplit uri).path
          have hnp_q : '?' ∉ rstripSlashesOrRoot (urlsplit uri).path := by
            intro hm
            rcases rstripSlashesOrRoot_subset _ hm with he | hm2
            · exact absurd he (by decide)
            · exact hpath_q hm2
          have hnp_h : '#' ∉ rstripSlashesOrRoot (urlsplit uri).path := by
            intro hm
            rcases rstripSlashesOrRoot_subset _ hm with he | hm2
            · exact absurd he (by decide)
            · exact hpath_h hm2
          have hnp_clean : ∀ c ∈ rstripSlashesOrRoot (urlsplit uri).path,
              isUnsafeUrlChar c = false := by
            intro c hc
            rcases rstripSlashesOrRoot_subset _ hc with he | hm2
            · subst he; exact clean_of_gt_32 (by decide)
            · exact hbase_clean c (hpath_sub c hm2)
          have hnp_st := rstripSlashesOrRoot_idem (urlsplit uri).path
          -- path starts with a slash whenever the stripped netloc is nonempty
          have hnp_slash : (rpartitionChar '@' (urlsplit uri).netloc).2.2 ≠ [] →
              (rstripSlashesOrRoot (urlsplit uri).path).headD ' ' = '/' := by
            intro hnnne
            apply rstripSlashesOrRoot_head
            have hnetne : (urlsplit uri).netloc ≠ [] := by
              intro hnil2
              apply hnnne
              rw [List.eq_nil_iff_forall_not_mem]
              intro c hc
              have hmem := hnn_sub c hc
              rw [hnil2] at hmem
              simp at hmem
            rcases urlsplitNetlocRest_snd_head hnetne with hrest | hrest
            · left
              show (splitTail '?' (splitTail '#'
                (urlsplitNetlocRest (splitScheme (urlsplitBase uri)).2).2).1).1 = []
              rw [hrest]
              rfl
            · by_cases hpnil : (urlsplit uri).path = []
              · exact Or.inl hpnil
              right
              have hfst1ne : (splitTail '#'
                  (urlsplitNetlocRest (splitScheme (urlsplitBase uri)).2).2).1 ≠ [] := by
                intro h
                apply hpnil
                show (splitTail '?' (splitTail '#'
                  (urlsplitNetlocRest (splitScheme (urlsplitBase uri)).2).2).1).1 = []
                rw [h]
                rfl
              have he1 : (urlsplit uri).path.headD ' ' =
                  ((splitTail '#'
                    (urlsplitNetlocRest (splitScheme (urlsplitBase uri)).2).2).1).headD ' ' := by
                rcases splitTail_fst_head '?' (splitTail '#'
                  (urlsplitNetlocRest (splitScheme (urlsplitBase uri)).2).2).1 with h | h
                · exact absurd h hpnil
                · exact h
              have he2 : ((splitTail '#'
                  (urlsplitNetlocRest (splitScheme (urlsplitBase uri)).2).2).1).headD ' ' =
                  ((urlsplitNetlocRest (splitScheme (urlsplitBase uri)).2).2).headD ' ' := by
                rcases splitTail_fst_head '#'
                  (urlsplitNetlocRest (splitScheme (urlsplitBase uri)).2).2 with h | h
                · exact absurd h hfst1ne
                · exact h
              have hfail : netlocChar ((urlsplit uri).path.headD ' ') = false := by
                rw [he1, he2]
                exact hrest
              rcases netlocChar_false_iff.mp hfail with h | h | h
              · exact h
              · exact absurd (h ▸ headD_mem hpnil) hpath_q
              · exact absurd (h ▸ headD_mem hpnil) hpath_h
          -- normalized query
          have hnq_h : '#' ∉ (if (urlsplit uri).query ≠ [] then
              canonicalQuery (urlsplit uri).query else []) := by
            intro hm
            by_cases hq0 : (urlsplit uri).query = []
            · rw [if_neg (fun h => h hq0)] at hm
              simp at hm
            · rw [if_pos hq0] at hm
              have hm2 : '#' ∈ urlencode (sortPairs (parse_qsl (urlsplit uri).query)) := hm
              exact (mem_urlencode_toNat hm2).2 rfl
          have hnq_clean : ∀ c ∈ (if (urlsplit uri).query ≠ [] then
              canonicalQuery (urlsplit uri).query else []), isUnsafeUrlChar c = false := by
            intro c hc
            by_cases hq0 : (urlsplit uri).query = []
            · rw [if_neg (fun h => h hq0)] at hc
              simp at hc
            · rw [if_pos hq0] at hc
              have hc2 : c ∈ urlencode (sortPairs (parse_qsl (urlsplit uri).query)) := hc
              exact clean_of_gt_32 (mem_urlencode_toNat hc2).1
          have hnq_idem : (if (urlsplit uri).query ≠ [] then
              canonicalQuery (urlsplit uri).query else []) ≠ [] →
              canonicalQuery (if (urlsplit uri).query ≠ [] then
                canonicalQuery (urlsplit uri).query else []) =
              (if (urlsplit uri).query ≠ [] then
                canonicalQuery (urlsplit uri).query else []) := by
            intro _
            by_cases hq0 : (urlsplit uri).query = []
            · rw [if_neg (fun h => h hq0)]
              rfl
            · rw [if_pos hq0]
              exact canonicalQuery_idem (urlsplit uri).query
          -- assemble
          rw [hns3] at h3 h4 ⊢
          exact sanitizeCore_fixed c₀ s' _ _ _ hhead0 (List.all_eq_true.mpr htail0) hlower0
            h3 h4 hnn_chars hnn_clean hnn_at hnb hnp_ne hnp_q hnp_h hnp_clean hnp_slash hnp_st
            hnq_h hnq_clean hnq_idem (fun hA hB => hcorner ⟨hA, hB⟩)

/-! ### Condition-node lemmas -/

theorem dedupKeys_congr : ∀ (l : List (String × Asset)) {s₁ s₂ : List String},
    (∀ k, k ∈ s₁ ↔ k ∈ s₂) → dedupKeys l s₁ = dedupKeys l s₂
  | [], _, _, _ => rfl
  | (k, v) :: rest, s₁, s₂, h => by
    simp only [dedupKeys]
    by_cases hk : k ∈ s₁
    · rw [if_pos hk, if_pos ((h k).mp hk)]
      exact dedupKeys_congr rest h
    · rw [if_neg hk, if_neg (fun hm => hk ((h k).mpr hm))]
      exact congrArg (List.cons (k, v)) (dedupKeys_congr rest
        (fun k2 => by rw [List.mem_cons, List.mem_cons, h k2]))

theorem dedupKeys_comp : ∀ (l : List (String × Asset)) (s s2 : List String),
    dedupKeys (dedupKeys l s) s2 = dedupKeys l (s ++ s2)
  | [], _, _ => rfl
  | (k, v) :: rest, s, s2 => by
    by_cases hk : k ∈ s
    · have h1 : dedupKeys ((k, v) :: rest) s = dedupKeys rest s := by
        simp only [dedupKeys]
        rw [if_pos hk]
      have h2 : dedupKeys ((k, v) :: rest) (s ++ s2) = dedupKeys rest (s ++ s2) := by
        simp only [dedupKeys]
        rw [if_pos (List.mem_append_left s2 hk)]
      rw [h1, h2]
      exact dedupKeys_comp rest s s2
    · have h1 : dedupKeys ((k, v) :: rest) s = (k, v) :: dedupKeys rest (k :: s) := by
        simp only [dedupKeys]
        rw [if_neg hk]
      rw [h1]
      by_cases hk2 : k ∈ s2
      · have h2 : dedupKeys ((k, v) :: dedupKeys rest (k :: s)) s2 =
            dedupKeys (dedupKeys rest (k :: s)) s2 := by
          simp only [dedupKeys]
          rw [if_pos hk2]
        have h3 : dedupKeys ((k, v) :: rest) (s ++ s2) = dedupKeys rest (s ++ s2) := by
          simp only [dedupKeys]
          rw [if_pos (List.mem_append_right s hk2)]
        rw [h2, h3, dedupKeys_comp rest (k :: s) s2]
        exact dedupKeys_congr rest
          (fun k2 => by
            simp only [List.mem_append, List.mem_cons]
            constructor
            · rintro ((h | h) | h)
              · subst h; right; exact hk2
              · left; exact h
              · right; exact h
            · rintro (h | h)
              · left; right; exact h
              · right; exact h)
      · have h2 : dedupKeys ((k, v) :: dedupKeys rest (k :: s)) s2 =
            (k, v) :: dedupKeys (dedupKeys rest (k :: s)) (k :: s2) := by
          simp only [dedupKeys]
          rw [if_neg hk2]
        have h3 : dedupKeys ((k, v) :: rest) (s ++ s2) =
            (k, v) :: dedupKeys rest (k :: (s ++ s2)) := by
          simp only [dedupKeys]
          rw [if_neg (by
            intro hm
            rcases List.mem_append.mp hm with h | h
            · exact hk h
            · exact hk2 h)]
        rw [h2, h3, dedupKeys_comp rest (k :: s) (k :: s2)]
        exact congrArg (List.cons (k, v)) (dedupKeys_congr rest
          (fun k2 => by
            simp only [List.mem_append, List.mem_cons]
            tauto))

theorem dedupKeys_append : ∀ (l₁ l₂ : List (String × Asset)) (seen : List String),
    dedupKeys (l₁ ++ l₂) seen =
      dedupKeys l₁ seen ++ dedupKeys l₂ (seen ++ (dedupKeys l₁ seen).map Prod.fst)
  | [], l₂, seen => by simp [dedupKeys]
  | (k, v) :: rest, l₂, seen => by
    by_cases hk : k ∈ seen
    · have h1 : dedupKeys ((k, v) :: rest) seen = dedupKeys rest seen := by
        simp only [dedupKeys]
        rw [if_pos hk]
      have h2 : dedupKeys (((k, v) :: rest) ++ l₂) seen = dedupKeys (rest ++ l₂) seen := by
        show dedupKeys ((k, v) :: (rest ++ l₂)) seen = _
        simp only [dedupKeys]
        rw [if_pos hk]
      rw [h2, dedupKeys_append rest l₂ seen, h1]
    · have h1 : dedupKeys ((k, v) :: rest) seen = (k, v) :: dedupKeys rest (k :: seen) := by
        simp only [dedupKeys]
        rw [if_neg hk]
      have h2 : dedupKeys (((k, v) :: rest) ++ l₂) seen =
          (k, v) :: dedupKeys (rest ++ l₂) (k :: seen) := by
        show dedupKeys ((k, v) :: (rest ++ l₂)) seen = _
        simp only [dedupKeys]
        rw [if_neg hk]
      rw [h2, dedupKeys_append rest l₂ (k :: seen), h1, List.cons_append, List.map_cons]
      exact congrArg (List.cons (k, v)) (congrArg _ (dedupKeys_congr l₂
        (fun k2 => by
          simp only [List.mem_append, List.mem_cons]
          tauto)))

mutual

theorem iter_assets_walk : ∀ t : BaseAsset, t.iter_assets = dedupKeys (leafWalk t) []
  | .asset a => by
    show [(a.uri, a)] = dedupKeys [(a.uri, a)] []
    simp [dedupKeys]
  | .assetAlias _ _ => rfl
  | .assetAny objs => iterAssetsList_walk objs []
  | .assetAll objs => iterAssetsList_walk objs []
  | .aliasCondition _ objs => rfl

theorem iterAssetsList_walk : ∀ (objs : List BaseAsset) (seen : List String),
    iterAssetsList objs seen = dedupKeys (leafWalkList objs) seen
  | [], _ => rfl
  | o :: os, seen => by
    show dedupKeys o.iter_assets seen ++
        iterAssetsList os (seen ++ (dedupKeys o.iter_assets seen).map Prod.fst) = _
    rw [iter_assets_walk o]
    rw [iterAssetsList_walk os (seen ++ (dedupKeys (dedupKeys (leafWalk o) []) seen).map Prod.fst)]
    rw [dedupKeys_comp (leafWalk o) [] seen]
    rw [show leafWalkList (o :: os) = leafWalk o ++ leafWalkList os from rfl]
    rw [dedupKeys_append]
    rw [show ([] : List String) ++ seen = seen from rfl]

end

theorem evaluateAny_defined (statuses : List (String × Bool)) :
    ∀ objs : List BaseAsset, (∀ o ∈ objs, (o.evaluate statuses).isSome = true) →
      evaluateAny statuses objs = some (objs.any fun o => (o.evaluate statuses).getD false)
  | [], _ => rfl
  | o :: os, h => by
    have ho := h o (List.mem_cons_self o os)
    rcases hv : o.evaluate statuses with _ | b
    · rw [hv] at ho
      simp at ho
    · have hrec := evaluateAny_defined statuses os
        (fun x hx => h x (List.mem_cons_of_mem o hx))
      cases b
      · simp only [evaluateAny, hv]
        rw [hrec]
        simp [List.any_cons, hv]
      · simp only [evaluateAny, hv]
        simp [List.any_cons, hv]

theorem evaluateAll_defined (statuses : List (String × Bool)) :
    ∀ objs : List BaseAsset, (∀ o ∈ objs, (o.evaluate statuses).isSome = true) →
      evaluateAll statuses objs = some (objs.all fun o => (o.evaluate statuses).getD false)
  | [], _ => rfl
  | o :: os, h => by
    have ho := h o (List.mem_cons_self o os)
    rcases hv : o.evaluate statuses with _ | b
    · rw [hv] at ho
      simp at ho
    · have hrec := evaluateAll_defined statuses os
        (fun x hx => h x (List.mem_cons_of_mem o hx))
      cases b
      · simp only [evaluateAll, hv]
        simp [List.all_cons, hv]
      · simp only [evaluateAll, hv]
        rw [hrec]
        simp [List.all_cons, hv]

theorem pyRepr_length (s : List Char) : 2 ≤ (pyRepr s).length := by
  unfold pyRepr
  simp [List.length_append]

/-- No branch of the bracketed-host validation can produce the reserved-scheme
error message (the generic `ipaddress` message is longer than it). -/
theorem check_bracketed_host_not_reserved (h : List Char) :
    check_bracketed_host h ≠
      .error (.valueError "Asset scheme \x27airflow\x27 is reserved") := by
  unfold check_bracketed_host
  split
  · split
    · simp
    · decide
  · split
    · decide
    · split
      · simp
      · intro hc
        injection hc with h2
        injection h2 with h3
        have h4 : pyRepr h ++ (" does not appear to be an IPv4 or IPv6 address" :
            String).data = ("Asset scheme \x27airflow\x27 is reserved" : String).data :=
          congrArg String.data h3
        have h5 := congrArg List.length h4
        rw [List.length_append] at h5
        have h6 := pyRepr_length h
        have h7 : (" does not appear to be an IPv4 or IPv6 address" :
            String).data.length = 46 := rfl
        have h8 : ("Asset scheme \x27airflow\x27 is reserved" : String).data.length = 34 := rfl
        rw [h7, h8] at h5
        omega

/-- The parse-time netloc validation never fails with the reserved-scheme
message. -/
theorem netlocChecks_not_reserved (netloc : List Char) :
    netlocChecks netloc ≠
      .error (.valueError "Asset scheme \x27airflow\x27 is reserved") := by
  unfold netlocChecks
  split
  · decide
  · split
    · exact check_bracketed_host_not_reserved _
    · simp

theorem flatten_pairs_length (nm S : String) : ∀ objs : List Asset,
    ((objs.map fun a =>
        ([⟨"asset-alias:" ++ nm, "asset", "asset", a.uri⟩,
          ⟨S, "asset:" ++ a.uri, "asset-alias", nm⟩] : List DagDependency)).flatten).length =
      2 * objs.length
  | [] => rfl
  | a :: os => by
    simp only [List.map_cons, List.flatten_cons, List.length_append, List.length_cons,
      List.length_nil, flatten_pairs_length nm S os]
    omega

/-! ### The claims -/

/-- Claim C1 (corrected): only the left-nested combination flattens.
`(A | B) | C` yields the flat `AssetAny [A, B, C]` (and `(A & B) & C` the flat
`AssetAll [A, B, C]`), because `AssetAny.__or__` splices its own children;
but the right-nested `A | (B | C)` goes through `BaseAsset.__or__`, which
wraps the two operands as they are, producing a nested `AssetAny`. -/
theorem c1_or_flattening (resolve : String → List Asset) (a b c : Asset) :
    orOp resolve (orOp resolve (.asset a) (.asset b)) (.asset c) =
      .assetAny [.asset a, .asset b, .asset c] ∧
    andOp resolve (andOp resolve (.asset a) (.asset b)) (.asset c) =
      .assetAll [.asset a, .asset b, .asset c] ∧
    orOp resolve (.asset a) (orOp resolve (.asset b) (.asset c)) =
      .assetAny [.asset a, .assetAny [.asset b, .asset c]] :=
  ⟨rfl, rfl, rfl⟩

/-- Claim C1, counterexample to the specification text: the right-nested
`A | (B | C)` is not the flat three-child `AssetAny`. -/
theorem c1_counterexample :
    orOp (fun _ => []) (.asset ⟨"a", "a", ""⟩)
      (orOp (fun _ => []) (.asset ⟨"b", "b", ""⟩) (.asset ⟨"c", "c", ""⟩)) ≠
    .assetAny [.asset ⟨"a", "a", ""⟩, .asset ⟨"b", "b", ""⟩, .asset ⟨"c", "c", ""⟩] := by
  intro h
  simp [orOp, assetAnyMk, replaceAliases] at h

/-- Claim C2 (corrected): an alias condition over `N ≥ 1` resolved assets with
an explicit nonempty `source` and empty `target` yields, per resolved asset,
one `asset` edge from `"asset-alias:{name}"` to `"asset"` carrying the asset
URI, and one `asset-alias` edge from `source` to `"asset:{uri}"` (the empty
target defaults to `"asset:{uri}"`, not to `source`) carrying the alias name —
`2N` edges in total. -/
theorem c2_alias_edges (nm : String) (objs : List Asset) (S : String)
    (hS : S ≠ "") (hobjs : objs ≠ []) :
    (BaseAsset.aliasCondition nm objs).iter_dag_dependencies S "" =
      (objs.map fun a =>
        [⟨"asset-alias:" ++ nm, "asset", "asset", a.uri⟩,
         ⟨S, "asset:" ++ a.uri, "asset-alias", nm⟩]).flatten ∧
    ((objs.map fun a =>
        ([⟨"asset-alias:" ++ nm, "asset", "asset", a.uri⟩,
          ⟨S, "asset:" ++ a.uri, "asset-alias", nm⟩] : List DagDependency)).flatten).length =
      2 * objs.length := by
  constructor
  · simp only [BaseAsset.iter_dag_dependencies]
    rw [if_pos hobjs]
    congr 1
    apply List.map_congr_left
    intro a _
    simp only [strOr]
    rw [if_pos hS, if_pos hS, if_neg hS]
    simp
  · exact flatten_pairs_length nm S objs

/-- Claim C2 witness: one resolved asset, `source = "S"`, empty target. -/
theorem c2_witness :
    (BaseAsset.aliasCondition "al" [⟨"n", "u", ""⟩]).iter_dag_dependencies "S" "" =
      (([⟨"n", "u", ""⟩] : List Asset).map fun a =>
        [⟨"asset-alias:" ++ "al", "asset", "asset", a.uri⟩,
         ⟨"S", "asset:" ++ a.uri, "asset-alias", "al"⟩]).flatten ∧
    ((([⟨"n", "u", ""⟩] : List Asset).map fun a =>
        ([⟨"asset-alias:" ++ "al", "asset", "asset", a.uri⟩,
          ⟨"S", "asset:" ++ a.uri, "asset-alias", "al"⟩] : List DagDependency)).flatten).length =
      2 * ([⟨"n", "u", ""⟩] : List Asset).length :=
  c2_alias_edges "al" [⟨"n", "u", ""⟩] "S" (by decide) (by decide)

/-- Claim C2, counterexample to the specification text: the `asset-alias`
edge does not run from `S` to `S`; its target is `"asset:u"`. -/
theorem c2_counterexample :
    (BaseAsset.aliasCondition "al" [⟨"n", "u", ""⟩]).iter_dag_dependencies "S" "" ≠
      [⟨"asset-alias:al", "asset", "asset", "u"⟩, ⟨"S", "S", "asset-alias", "al"⟩] := by
  decide

/-- Claim C3 (corrected): `_sanitize_uri` applied to its own successful output
returns the output unchanged, provided the normalized parts do not combine an
empty auth-stripped netloc with a path starting in `//` (in that corner
`urlunsplit` collapses the `//` into the netloc marker and a second pass
parses the URL differently), and the auth-stripped netloc holds no bracket
and is ASCII (a bracket surviving auth-stripping can turn the second parse
into the `Invalid IPv6 URL` failure, as on `http://[::1]@h]st/p`; the ASCII
condition keeps the second parse clear of the NFKC netloc validation, which
this model does not capture and which is vacuous on ASCII netlocs). -/
theorem c3_sanitize_idem (u out : String)
    (hok : sanitize_uri u = .ok out)
    (hnb : '[' ∉ (rpartitionChar '@' (urlsplit u.data).netloc).2.2 ∧
      ']' ∉ (rpartitionChar '@' (urlsplit u.data).netloc).2.2)
    (_hascii : ∀ c ∈ (rpartitionChar '@' (urlsplit u.data).netloc).2.2, c.toNat < 128)
    (hcorner : ¬((rpartitionChar '@' (urlsplit u.data).netloc).2.2 = [] ∧
      (rstripSlashesOrRoot (urlsplit u.data).path).take 2 = ['/', '/'])) :
    sanitize_uri out = .ok out := by
  unfold sanitize_uri at hok ⊢
  rcases hco : sanitizeCore u.data with e | l
  · rw [hco] at hok
    exact absurd hok (by simp [Except.map])
  · rw [hco] at hok
    have hok2 : Except.ok (String.mk l) = Except.ok out := hok
    injection hok2 with hout
    subst hout
    have h2 := sanitizeCore_idem u.data l hco hnb hcorner
    show (sanitizeCore (String.mk l).data).map String.mk = Except.ok (String.mk l)
    rw [show (String.mk l).data = l from rfl, h2]
    rfl

/-- Claim C3 witness: `s3://x` canonicalizes to `s3://x/`, which is a fixed
point of a second pass. -/
theorem c3_witness : sanitize_uri "s3://x/" = Except.ok "s3://x/" :=
  c3_sanitize_idem "s3://x" "s3://x/" (by decide) (by decide) (by decide) (by decide)

/-- Claim C3, counterexample to the specification text: canonicalization is
not idempotent on `file:////x` — the first pass collapses the extra slashes
into `file://x`, and the second pass maps that to `file://x/`. -/
theorem c3_counterexample :
    sanitize_uri "file:////x" = .ok "file://x" ∧
    sanitize_uri "file://x" = .ok "file://x/" ∧
    sanitize_uri "file://x" ≠ .ok "file://x" :=
  ⟨by decide, by decide, by decide⟩

/-- Claim C4 (confirmed): a leaf `Asset` evaluates to the status of its own
URI (defaulting to false when absent); when every child evaluates to a
boolean, `AssetAny` evaluates to the OR and `AssetAll` to the AND of the
children's results; the empty `AssetAny` is false and the empty `AssetAll`
is true. -/
theorem c4_evaluate (statuses : List (String × Bool)) (a : Asset) (objs : List BaseAsset)
    (h : ∀ o ∈ objs, (o.evaluate statuses).isSome = true) :
    (BaseAsset.asset a).evaluate statuses = some ((statuses.lookup a.uri).getD false) ∧
    (BaseAsset.assetAny objs).evaluate statuses =
      some (objs.any fun o => (o.evaluate statuses).getD false) ∧
    (BaseAsset.assetAll objs).evaluate statuses =
      some (objs.all fun o => (o.evaluate statuses).getD false) ∧
    (BaseAsset.assetAny ([] : List BaseAsset)).evaluate statuses = some false ∧
    (BaseAsset.assetAll ([] : List BaseAsset)).evaluate statuses = some true := by
  refine ⟨rfl, ?_, ?_, rfl, rfl⟩
  · show evaluateAny statuses objs = _
    exact evaluateAny_defined statuses objs h
  · show evaluateAll statuses objs = _
    exact evaluateAll_defined statuses objs h

/-- Claim C4 witness: a concrete status map and child list. -/
theorem c4_witness :
    (BaseAsset.asset ⟨"n", "u", ""⟩).evaluate [("u", true)] =
      some ((([("u", true)] : List (String × Bool)).lookup (Asset.uri ⟨"n", "u", ""⟩)).getD
        false) ∧
    (BaseAsset.assetAny [.asset ⟨"n", "u", ""⟩]).evaluate [("u", true)] =
      some (([.asset ⟨"n", "u", ""⟩] : List BaseAsset).any
        fun o => (o.evaluate [("u", true)]).getD false) ∧
    (BaseAsset.assetAll [.asset ⟨"n", "u", ""⟩]).evaluate [("u", true)] =
      some (([.asset ⟨"n", "u", ""⟩] : List BaseAsset).all
        fun o => (o.evaluate [("u", true)]).getD false) ∧
    (BaseAsset.assetAny ([] : List BaseAsset)).evaluate [("u", true)] = some false ∧
    (BaseAsset.assetAll ([] : List BaseAsset)).evaluate [("u", true)] = some true :=
  c4_evaluate [("u", true)] ⟨"n", "u", ""⟩ [.asset ⟨"n", "u", ""⟩] (by decide)

/-- Claim C5 (confirmed): `iter_assets` of any condition node equals the raw
depth-first left-to-right leaf walk deduplicated by URI with the first
occurrence kept in place; in particular `AssetAny(A, A, B)` yields exactly
`[(A.uri, A), (B.uri, B)]` when the URIs differ. -/
theorem c5_iter_assets (t : BaseAsset) (A B : Asset) (hAB : A.uri ≠ B.uri) :
    t.iter_assets = dedupKeys (leafWalk t) [] ∧
    (BaseAsset.assetAny [.asset A, .asset A, .asset B]).iter_assets =
      [(A.uri, A), (B.uri, B)] := by
  refine ⟨iter_assets_walk t, ?_⟩
  rw [iter_assets_walk]
  show dedupKeys [(A.uri, A), (A.uri, A), (B.uri, B)] [] = [(A.uri, A), (B.uri, B)]
  simp [dedupKeys, Ne.symm hAB]

/-- Claim C5 witness: a leaf node and a concrete duplicated pair. -/
theorem c5_witness :
    (BaseAsset.asset ⟨"n", "u", ""⟩).iter_assets =
      dedupKeys (leafWalk (BaseAsset.asset ⟨"n", "u", ""⟩)) [] ∧
    (BaseAsset.assetAny [.asset ⟨"a", "ua", ""⟩, .asset ⟨"a", "ua", ""⟩,
        .asset ⟨"b", "ub", ""⟩]).iter_assets =
      [(Asset.uri ⟨"a", "ua", ""⟩, ⟨"a", "ua", ""⟩), (Asset.uri ⟨"b", "ub", ""⟩, ⟨"b", "ub", ""⟩)] :=
  c5_iter_assets (BaseAsset.asset ⟨"n", "u", ""⟩) ⟨"a", "ua", ""⟩ ⟨"b", "ub", ""⟩ (by decide)

/-- Claim C6 (corrected): `_validate_identifier` itself accepts the empty
string (it is not whitespace-only and is ASCII), returning it unchanged; only
`_validate_non_empty_identifier` rejects it. -/
theorem c6_empty_identifier (ownerType attrName : String) :
    validate_identifier ownerType attrName (.str "") = .ok "" ∧
    validate_non_empty_identifier ownerType attrName (.str "") =
      .error (.valueError (ownerType ++ " " ++ attrName ++ " cannot be empty")) :=
  ⟨rfl, rfl⟩

/-- Claim C6, counterexample to the specification text: the validator used
for `AssetAlias.group` accepts the empty string. -/
theorem c6_counterexample :
    validate_identifier "AssetAlias" "group" (.str "") = .ok "" := rfl

/-- Claim C7 (corrected): when `urlsplit` itself succeeds, `_sanitize_uri`
fails with the reserved-scheme error exactly when the lower-cased scheme is
`airflow` (in particular `airflow://x` fails so); but parsing may fail first
with its own `ValueError`, so the reserved failure is not equivalent to the
scheme alone being `airflow`. -/
theorem c7_reserved_scheme (u : String) :
    (sanitize_uri u =
        .error (.valueError "Asset scheme \x27airflow\x27 is reserved") ↔
      urlsplitE u.data = .ok (urlsplit u.data) ∧
        get_normalized_scheme u.data = "airflow".data) ∧
    sanitize_uri "airflow://x" =
      .error (.valueError "Asset scheme \x27airflow\x27 is reserved") := by
  constructor
  · constructor
    · intro h
      unfold sanitize_uri at h
      have hchk : netlocChecks (urlsplit u.data).netloc = .ok () := by
        rcases hchk0 : netlocChecks (urlsplit u.data).netloc with e | v
        · have hodd := sanitizeCore_of_err u.data e hchk0
          rw [hodd] at h
          have h2 : (Except.error e : Except PyExc String) =
              .error (.valueError "Asset scheme \x27airflow\x27 is reserved") := h
          injection h2 with h3
          rw [h3] at hchk0
          exact absurd hchk0 (netlocChecks_not_reserved _)
        · cases v
          rfl
      have hE : urlsplitE u.data = .ok (urlsplit u.data) := by
        unfold urlsplitE
        rw [hchk]
      refine ⟨hE, ?_⟩
      rcases hco : sanitizeCore u.data with e | l
      · rw [hco] at h
        have h2 : (Except.error e : Except PyExc String) =
            .error (.valueError "Asset scheme \x27airflow\x27 is reserved") := h
        injection h2 with h3
        rw [sanitizeCore_eq _ hchk] at hco
        split at hco
        · exact absurd hco (by simp)
        · split at hco
          · exact absurd hco (by simp)
          · split at hco
            · exact absurd hco (by simp)
            · split at hco
              · next hcond => exact hcond
              · exact absurd hco (by simp)
      · rw [hco] at h
        have h2 : (Except.ok (String.mk l) : Except PyExc String) =
            .error (.valueError "Asset scheme \x27airflow\x27 is reserved") := h
        exact absurd h2 (by simp)
    · rintro ⟨hE, hns⟩
      have hchk : netlocChecks (urlsplit u.data).netloc = .ok () := by
        rcases hchk0 : netlocChecks (urlsplit u.data).netloc with e | v
        · exfalso
          have hodd : urlsplitE u.data = .error e := by
            unfold urlsplitE
            rw [hchk0]
          rw [hodd] at hE
          exact absurd hE (by simp)
        · cases v
          rfl
      have hne2 : get_normalized_scheme u.data ≠ [] := by
        rw [hns]
        decide
      unfold sanitize_uri
      rw [sanitizeCore_eq _ hchk]
      rw [if_neg (fun hcon => hne2 (show get_normalized_scheme u.data = [] by
        unfold get_normalized_scheme
        rw [hcon.1]
        rfl))]
      rw [if_neg hne2]
      rw [if_neg (fun hcon => by rw [hns] at hcon; exact absurd hcon (by decide))]
      rw [if_pos hns]
      rfl
  · decide

/-- Claim C7, counterexample to the specification text: canonicalizing
`airflow://]x`, whose lower-cased scheme reads `airflow`, fails with the
parse error `Invalid IPv6 URL` rather than the reserved-scheme error,
because `urlsplit` raises on the unmatched bracket before the reserved-scheme
check is reached. -/
theorem c7_counterexample :
    get_normalized_scheme "airflow://]x".data = "airflow".data ∧
    sanitize_uri "airflow://]x" = .error (.valueError "Invalid IPv6 URL") ∧
    sanitize_uri "airflow://]x" ≠
      .error (.valueError "Asset scheme \x27airflow\x27 is reserved") :=
  ⟨by decide, by decide, by decide⟩

/-- Claim C8 (confirmed): `Asset.__init__` rejects the no-argument call with
a `TypeError`; given only a name or only a URI, the other defaults to the
same value, the URI side being canonicalized (e.g. a bare URI `s3://x`
becomes the name `s3://x` and the URI `s3://x/`). -/
theorem c8_asset_init (group assetType n u : String) :
    asset_init none none group assetType =
      .error (.typeError "Asset() requires either \x27name\x27 or \x27uri\x27") ∧
    asset_init (some n) none group assetType = asset_init (some n) (some n) group assetType ∧
    asset_init none (some u) group assetType = asset_init (some u) (some u) group assetType ∧
    asset_init none (some "s3://x") "" "" = .ok ⟨"s3://x", "s3://x/", ""⟩ ∧
    asset_init (some "x") none "" "" = .ok ⟨"x", "x", ""⟩ :=
  ⟨rfl, rfl, rfl, by decide, by decide⟩

/-- Claim C9 (confirmed): `_validate_identifier` checks its rules in order —
non-string, then length over 1500 (a 1501-character value fails), then
whitespace-only, then non-ASCII — failing with a `ValueError` naming the
owner type and attribute, and returns a value passing all rules unchanged. -/
theorem c9_validator (ownerType attrName s : String) :
    validate_identifier ownerType attrName .nonString =
      .error (.valueError (ownerType ++ " " ++ attrName ++ " must be a string")) ∧
    (s.length > 1500 →
      validate_identifier ownerType attrName (.str s) =
        .error (.valueError (ownerType ++ " " ++ attrName ++
          " cannot exceed 1500 characters"))) ∧
    (s.length ≤ 1500 → py_isspace s = true →
      validate_identifier ownerType attrName (.str s) =
        .error (.valueError (ownerType ++ " " ++ attrName ++
          " cannot be just whitespace"))) ∧
    (s.length ≤ 1500 → py_isspace s = false → py_isascii s = false →
      validate_identifier ownerType attrName (.str s) =
        .error (.valueError (ownerType ++ " " ++ attrName ++
          " must only consist of ASCII characters"))) ∧
    (s.length ≤ 1500 → py_isspace s = false → py_isascii s = true →
      validate_identifier ownerType attrName (.str s) = .ok s) ∧
    validate_identifier "Asset" "name" (.str (String.mk (List.replicate 1501 'x'))) =
      .error (.valueError "Asset name cannot exceed 1500 characters") := by
  refine ⟨rfl, ?_, ?_, ?_, ?_, ?_⟩
  · intro hlen
    simp only [validate_identifier]
    rw [if_pos hlen]
  · intro hlen hws
    simp only [validate_identifier]
    rw [if_neg (by omega), if_pos hws]
  · intro hlen hws hascii
    simp only [validate_identifier]
    rw [if_neg (by omega), if_neg (by simp [hws]), if_pos (by rw [hascii]; rfl)]
  · intro hlen hws hascii
    simp only [validate_identifier]
    rw [if_neg (by omega), if_neg (by simp [hws]), if_neg (by simp [hascii])]
  · simp only [validate_identifier]
    rw [if_pos (show (String.mk (List.replicate 1501 'x')).length > 1500 by
      show (List.replicate 1501 'x').length > 1500
      rw [List.length_replicate]
      omega)]
    rfl

/-- Claim C9 witness: a short plain-ASCII value passes and is returned
unchanged. -/
theorem c9_witness :
    validate_identifier "Asset" "uri" (.str "ok") = .ok "ok" :=
  ((c9_validator "Asset" "uri" "ok").2.2.2.2).1 (by decide) (by decide) (by decide)

/-- Claim C10 (confirmed): every condition node is truthy under `__bool__`,
including nodes whose `evaluate` is false on some statuses map (the empty
`AssetAny`), so truthiness never reflects evaluation. -/
theorem c10_truthiness :
    (∀ t : BaseAsset, t.toBool = true) ∧
    (∃ t : BaseAsset, ∃ statuses : List (String × Bool),
      t.evaluate statuses = some false ∧ t.toBool = true) :=
  ⟨fun _ => rfl, ⟨.assetAny [], [], rfl, rfl⟩⟩

end AirflowAssets
